import Mathlib

/-!
Shallow embedding of the static-site generator core (ssg.js): the slug
assigner `slugify`, the template renderer `renderTemplate` with its
dotted-path lookup `getNestedValue`, the pagination planner of
`generateSite`, the page-path resolution of `generateSite` and
`processTaxonomies`, and the taxonomy grouping loop of `processTaxonomies`.

Strings are modelled as `List Char`.  JavaScript values are modelled by the
inductive `JVal`; the absent value `undefined` is modelled by `none` in
`Option JVal`.  JavaScript loop counters are modelled by `Nat`.  The two
`while`-style loops of the source (the slug uniqueness loop and the
character scan of the regex-replace passes) are modelled with an explicit
fuel argument so that every definition is structurally recursive and can be
evaluated by `decide`; sufficiency of the chosen fuel is proved, not
assumed, in the theorems below.
-/

/-- Left curly brace character (written by code so that template marker
strings can be built explicitly). -/
def lb : Char := '\x7b'

/-- Right curly brace character. -/
def rb : Char := '\x7d'

/-- Strings of the embedded program. -/
abbrev Str := List Char

/-! ## Decimal numerals

`${counter}` and `${page}` interpolation in the source produce the decimal
numeral of a nonnegative integer.  `natDigitsAux` is fuelled so that it is
structurally recursive; `natDigits n` always carries enough fuel. -/

def digitChar (n : Nat) : Char := Char.ofNat (48 + n)

def natDigitsAux : Nat → Nat → List Char
  | 0, _ => []
  | fuel + 1, n =>
    if n < 10 then [digitChar n]
    else natDigitsAux fuel (n / 10) ++ [digitChar (n % 10)]

/-- Decimal numeral of a natural number, as produced by JavaScript string
interpolation of a nonnegative integer. -/
def natDigits (n : Nat) : List Char := natDigitsAux (n + 1) n

/-- Decimal numeral of an integer (JavaScript `String(n)` for integral
numbers). -/
def intStr (n : Int) : Str :=
  if n < 0 then '-' :: natDigits n.natAbs else natDigits n.toNat

/-! ## Slug assigner (ssg.js, `slugify`)

```js
function slugify(input, existingSlugs = new Set()) {
  let slug = String(input)
    .toLowerCase()
    .normalize('NFKD')
    .replace(/\s+/g, '-')
    .replace(/[^\w\-]+/g, '')
    .replace(/[\*]+/g, '')
    .replace(/\-\-+/g, '-')
    .replace(/^-+/, '')
    .replace(/ -+$ /, '');   (regex written with spaces here; none in source)
  if (!slug) slug = 'untitled';
  if (slug.length < 2) { slug = slug.padEnd(2, '0'); }
  if (slug.length > 30) {
    slug = slug.substring(0, 30);
    if (slug.endsWith('-')) { slug = slug.substring(0, 29); }
  }
  let finalSlug = slug;
  let counter = 1;
  while (existingSlugs.has(finalSlug)) {
    counter++;
    const suffix = `-${counter}`;
    const base = slug.substring(0, 30 - suffix.length);
    if (base.endsWith('-')) {
      finalSlug = base.substring(0, base.length - 1) + suffix;
    } else {
      finalSlug = base + suffix;
    }
  }
  if (existingSlugs instanceof Set) { existingSlugs.add(finalSlug); }
  return finalSlug;
}
```

`normalize('NFKD')` is modelled as the identity: it is the identity on
ASCII text, and every non-ASCII character (decomposed or not) is removed by
the following `[^\w\-]+` replacement, so the modelling choice does not
affect the character-set, length or uniqueness properties proved here.
`\w` in a non-unicode JavaScript regex is `[A-Za-z0-9_]` and `\s` covers
the usual ASCII whitespace. -/

/-- `\w` of a JavaScript regex: ASCII letter, digit or underscore. -/
def isWordCh (c : Char) : Bool := c.isAlphanum || c = '_'

/-- Whitespace as matched by `\s` (ASCII part). -/
def isWsCh (c : Char) : Bool := c.isWhitespace

/-- `.replace(/\s+/g, '-')`: every maximal run of whitespace becomes a
single hyphen.  The boolean flag records whether the previous character was
part of a whitespace run. -/
def collWsAux : Bool → List Char → List Char
  | _, [] => []
  | prevWs, c :: cs =>
    if isWsCh c then
      if prevWs then collWsAux true cs else '-' :: collWsAux true cs
    else c :: collWsAux false cs

/-- `.replace(/\-\-+/g, '-')`: every maximal run of hyphens becomes a
single hyphen (runs of length one are already single). -/
def collHyAux : Bool → List Char → List Char
  | _, [] => []
  | prevHy, c :: cs =>
    if c = '-' then
      if prevHy then collHyAux true cs else '-' :: collHyAux true cs
    else c :: collHyAux false cs

/-- The trailing-hyphen trim (the `-+$` to empty replacement). -/
def trimEndHy (s : Str) : Str := (s.reverse.dropWhile (fun c => c = '-')).reverse

/-- The normalization pipeline of `slugify` before the length rules:
lowercase, NFKD (identity, see above), whitespace runs to `-`, drop
non-word non-hyphen characters, drop asterisks (already gone), collapse
hyphen runs, trim leading and trailing hyphens. -/
def rawSlug (input : Str) : Str :=
  let s1 := input.map Char.toLower
  let s2 := collWsAux false s1
  let s3 := s2.filter (fun c => isWordCh c || c = '-')
  let s4 := s3.filter (fun c => c ≠ '*')
  let s5 := collHyAux false s4
  let s6 := s5.dropWhile (fun c => c = '-')
  trimEndHy s6

/-- The candidate slug after the fallback, the minimum-length padding and
the maximum-length truncation. -/
def baseSlug (input : Str) : Str :=
  let s0 := rawSlug input
  let s1 := if s0 = [] then "untitled".data else s0
  let s2 := if s1.length < 2 then s1 ++ List.replicate (2 - s1.length) '0' else s1
  if 30 < s2.length then
    let t := s2.take 30
    if t.getLast? = some '-' then s2.take 29 else t
  else s2

/-- The suffixed candidate tried by the uniqueness loop for counter value
`c`: `base + "-c"` where `base` is the candidate truncated to fit 30
characters (`substring` clamps a negative end to 0, as does `Nat`
subtraction) with a trailing hyphen dropped. -/
def candidate (slug : Str) (c : Nat) : Str :=
  let suffix := '-' :: natDigits c
  let base := slug.take (30 - suffix.length)
  if base.getLast? = some '-' then base.dropLast ++ suffix else base ++ suffix

/-- The registry of already assigned slugs (`existingSlugs`), modelled as a
list of strings with membership as `Set.has`. -/
abbrev Registry := List Str

/-- The largest integer the JavaScript `counter` (an IEEE-754 double) can
count up to: every integer up to `2 ^ 53` is exactly representable, and
`counter++` at `2 ^ 53` is a fixed point (`2 ^ 53 + 1` is not representable
and rounds back to `2 ^ 53`), so the uniqueness loop can never test a
suffix counter above `2 ^ 53`. -/
def counterCap : Nat := 2 ^ 53

/-- `counter++` on the IEEE-754 double: exact below `counterCap`, a fixed
point at `counterCap`. -/
def jsInc (c : Nat) : Nat := if c < counterCap then c + 1 else c

/-- The `while (existingSlugs.has(finalSlug))` loop, fuelled.  `c` is the
counter value whose candidate is currently under test (the source
increments before recomputing, so the first tested suffix counter is 2).
`none` means the fuel ran out; with fuel `counterCap` that happens exactly
when every reachable candidate is registered, in which case the real loop
increments to `2 ^ 53`, stalls there, and spins forever. -/
def uniqLoop (reg : Registry) (slug : Str) : Nat → Nat → Option Str
  | 0, _ => none
  | fuel + 1, c =>
    if candidate slug c ∈ reg then uniqLoop reg slug fuel (jsInc c)
    else some (candidate slug c)

/-- `slugify(input, existingSlugs)`: the final slug together with the
updated registry (the source mutates `existingSlugs` by adding the final
slug before returning).  `none` models the diverging loop: every candidate
with a reachable suffix counter (at most `counterCap`) already
registered. -/
def slugify (reg : Registry) (input : Str) : Option (Str × Registry) :=
  let slug := baseSlug input
  if slug ∈ reg then
    match uniqLoop reg slug counterCap 2 with
    | some s => some (s, s :: reg)
    | none => none
  else some (slug, slug :: reg)

/-! ## JavaScript values -/

/-- JavaScript data values as consumed by the renderer: `null`, booleans,
(integral) numbers, strings, arrays and plain objects.  An object is an
ordered association list; a JavaScript object has no duplicate keys and
lookup takes the first match.  The absent value `undefined` is represented
by `none` at `Option JVal`. -/
inductive JVal where
  | vNull
  | vBool (b : Bool)
  | vNum (n : Int)
  | vStr (s : Str)
  | vArr (xs : List JVal)
  | vObj (fs : List (Str × JVal))

open JVal

mutual

def decEqJVal : (a b : JVal) → Decidable (a = b)
  | vNull, vNull => isTrue rfl
  | vBool a, vBool b =>
    match decEq a b with
    | isTrue h => isTrue (by rw [h])
    | isFalse h => isFalse (by intro hh; cases hh; exact h rfl)
  | vNum a, vNum b =>
    match decEq a b with
    | isTrue h => isTrue (by rw [h])
    | isFalse h => isFalse (by intro hh; cases hh; exact h rfl)
  | vStr a, vStr b =>
    match decEq a b with
    | isTrue h => isTrue (by rw [h])
    | isFalse h => isFalse (by intro hh; cases hh; exact h rfl)
  | vArr a, vArr b =>
    match decEqJList a b with
    | isTrue h => isTrue (by rw [h])
    | isFalse h => isFalse (by intro hh; cases hh; exact h rfl)
  | vObj a, vObj b =>
    match decEqJFields a b with
    | isTrue h => isTrue (by rw [h])
    | isFalse h => isFalse (by intro hh; cases hh; exact h rfl)
  | vNull, vBool _ => isFalse (by intro h; cases h)
  | vNull, vNum _ => isFalse (by intro h; cases h)
  | vNull, vStr _ => isFalse (by intro h; cases h)
  | vNull, vArr _ => isFalse (by intro h; cases h)
  | vNull, vObj _ => isFalse (by intro h; cases h)
  | vBool _, vNull => isFalse (by intro h; cases h)
  | vBool _, vNum _ => isFalse (by intro h; cases h)
  | vBool _, vStr _ => isFalse (by intro h; cases h)
  | vBool _, vArr _ => isFalse (by intro h; cases h)
  | vBool _, vObj _ => isFalse (by intro h; cases h)
  | vNum _, vNull => isFalse (by intro h; cases h)
  | vNum _, vBool _ => isFalse (by intro h; cases h)
  | vNum _, vStr _ => isFalse (by intro h; cases h)
  | vNum _, vArr _ => isFalse (by intro h; cases h)
  | vNum _, vObj _ => isFalse (by intro h; cases h)
  | vStr _, vNull => isFalse (by intro h; cases h)
  | vStr _, vBool _ => isFalse (by intro h; cases h)
  | vStr _, vNum _ => isFalse (by intro h; cases h)
  | vStr _, vArr _ => isFalse (by intro h; cases h)
  | vStr _, vObj _ => isFalse (by intro h; cases h)
  | vArr _, vNull => isFalse (by intro h; cases h)
  | vArr _, vBool _ => isFalse (by intro h; cases h)
  | vArr _, vNum _ => isFalse (by intro h; cases h)
  | vArr _, vStr _ => isFalse (by intro h; cases h)
  | vArr _, vObj _ => isFalse (by intro h; cases h)
  | vObj _, vNull => isFalse (by intro h; cases h)
  | vObj _, vBool _ => isFalse (by intro h; cases h)
  | vObj _, vNum _ => isFalse (by intro h; cases h)
  | vObj _, vStr _ => isFalse (by intro h; cases h)
  | vObj _, vArr _ => isFalse (by intro h; cases h)

def decEqJList : (a b : List JVal) → Decidable (a = b)
  | [], [] => isTrue rfl
  | x :: xs, y :: ys =>
    match decEqJVal x y, decEqJList xs ys with
    | isTrue h1, isTrue h2 => isTrue (by rw [h1, h2])
    | isFalse h1, _ => isFalse (by intro hh; cases hh; exact h1 rfl)
    | _, isFalse h2 => isFalse (by intro hh; cases hh; exact h2 rfl)
  | [], _ :: _ => isFalse (by intro h; cases h)
  | _ :: _, [] => isFalse (by intro h; cases h)

def decEqJFields : (a b : List (Str × JVal)) → Decidable (a = b)
  | [], [] => isTrue rfl
  | (k1, v1) :: xs, (k2, v2) :: ys =>
    match decEq k1 k2, decEqJVal v1 v2, decEqJFields xs ys with
    | isTrue h0, isTrue h1, isTrue h2 => isTrue (by rw [h0, h1, h2])
    | isFalse h0, _, _ => isFalse (by intro hh; cases hh; exact h0 rfl)
    | _, isFalse h1, _ => isFalse (by intro hh; cases hh; exact h1 rfl)
    | _, _, isFalse h2 => isFalse (by intro hh; cases hh; exact h2 rfl)
  | [], _ :: _ => isFalse (by intro h; cases h)
  | _ :: _, [] => isFalse (by intro h; cases h)

end

instance : DecidableEq JVal := decEqJVal

instance : Inhabited JVal := ⟨vNull⟩

/-! `jsString` is JavaScript `String(v)` for the values of the model.
Arrays stringify by joining their elements with commas, where a `null`
element contributes empty text; objects stringify to the default
`"[object Object]"`. -/

mutual

def jsString : JVal → Str
  | vNull => "null".data
  | vBool b => if b then "true".data else "false".data
  | vNum n => intStr n
  | vStr s => s
  | vArr xs => jsArrStr xs
  | vObj _ => "[object Object]".data

def jsArrStr : List JVal → Str
  | [] => []
  | [vNull] => []
  | [v] => jsString v
  | vNull :: vs => ',' :: jsArrStr vs
  | v :: vs => jsString v ++ ',' :: jsArrStr vs

end

/-- JavaScript truthiness of a defined value: `false`, `0`, the empty
string and `null` are falsy; every array and object (empty or not) is
truthy. -/
def jsTruthy : JVal → Bool
  | vNull => false
  | vBool b => b
  | vNum n => decide (n ≠ 0)
  | vStr s => decide (s ≠ [])
  | vArr _ => true
  | vObj _ => true

/-- Truthiness of a possibly-undefined value (`undefined` is falsy). -/
def jsTruthyOpt : Option JVal → Bool
  | none => false
  | some v => jsTruthy v

/-! ## Dotted-path lookup (ssg.js, `getNestedValue`)

```js
function getNestedValue(obj, path) {
  const parts = path.split('.');
  let value = obj;
  for (const part of parts) {
    value = value?.[part];
    if (value === undefined) { break; }
  }
  return value;
}
```
-/

/-- First-match lookup in an object's field list. -/
def lookupStr : List (Str × JVal) → Str → Option JVal
  | [], _ => none
  | (k, v) :: tl, key => if k = key then some v else lookupStr tl key

/-- Does a string consist of digits and denote `n` in canonical form?
JavaScript array indexing `arr["k"]` hits an element only for the
canonical numeral of an index. -/
def isCanonIndex (k : Str) (n : Nat) : Bool := k = natDigits n

def digitsVal (k : Str) : Nat := k.foldl (fun a c => a * 10 + (c.toNat - 48)) 0

/-- One step `value?.[part]` of the lookup walk: field access on objects;
on arrays, `length` and canonical numeric indices; `undefined` otherwise
(including every property access on `null`, strings, numbers and
booleans, which the renderer never relies on). -/
def getProp : JVal → Str → Option JVal
  | vObj fs, k => lookupStr fs k
  | vArr xs, k =>
    if k = "length".data then some (vNum (Int.ofNat xs.length))
    else if isCanonIndex k (digitsVal k) then xs.get? (digitsVal k)
    else none
  | _, _ => none

/-- `getNestedValue`: split the path on `'.'` and walk; the walk stops at
(and returns) `undefined` as soon as a segment is missing. -/
def getNestedValue (d : JVal) (p : Str) : Option JVal :=
  (p.splitOn '.').foldl (fun acc part => acc.bind (fun v => getProp v part)) (some d)

/-! ## Template renderer (ssg.js, `renderTemplate`)

```js
function renderTemplate(template, data) {
  let output = template.replace(/\{\{#each ([^}]+)\}\}([\s\S]+?)\{\{\/each\}\}/g, (m, arrayPath, loopContent) => {
    const array = getNestedValue(data, arrayPath);
    if (!Array.isArray(array)) return '';
    return array.map((item, index) => {
      const context = { ...item, '@index': index, '@first': index === 0,
                        '@last': index === array.length - 1, '@root': data };
      return renderTemplate(loopContent, context);
    }).join('');
  });
  output = output.replace(/\{\{#if ([^}]+)\}\}([\s\S]+?)\{\{\/if\}\}/g, (m, condition, ifContent) => {
    const value = getNestedValue(data, condition);
    if (Array.isArray(value)) return value.length > 0 ? renderTemplate(ifContent, data) : '';
    return value ? renderTemplate(ifContent, data) : '';
  });
  output = output.replace(/\{\{#unless ([^}]+)\}\}([\s\S]+?)\{\{\/unless\}\}/g, (m, condition, unlessContent) => {
    const value = getNestedValue(data, condition);
    return !value ? renderTemplate(unlessContent, data) : '';
  });
  output = output.replace(/\{\{([^}]+)\}\}/g, (m, path) => {
    return getNestedValue(data, path) || '';
  });
  return output;
}
```

Each `replace` pass is modelled by a left-to-right character scan that, at
every position, first attempts the (leftmost, lazily-bodied) match exactly
as the regex engine does, copies one character on failure and resumes
after the matched text on success.  The recursive `renderTemplate` calls
inside the callbacks are fuelled; `none` signals fuel exhaustion and is
propagated (the source recursion is not well-founded, see the theorem on
claim C9). -/

def eachOpen : Str := [lb, lb, '#', 'e', 'a', 'c', 'h', ' ']
def eachClose : Str := [lb, lb, '/', 'e', 'a', 'c', 'h', rb, rb]
def ifOpen : Str := [lb, lb, '#', 'i', 'f', ' ']
def ifClose : Str := [lb, lb, '/', 'i', 'f', rb, rb]
def unlessOpen : Str := [lb, lb, '#', 'u', 'n', 'l', 'e', 's', 's', ' ']
def unlessClose : Str := [lb, lb, '/', 'u', 'n', 'l', 'e', 's', 's', rb, rb]

/-- Index of the first occurrence of `pat` in `s`, if any. -/
def findOcc (pat : Str) : Str → Option Nat
  | [] => if pat = [] then some 0 else none
  | c :: cs => if pat.isPrefixOf (c :: cs) then some 0 else (findOcc pat cs).map (· + 1)

/-- Attempt the block regex `open([^}]+)}}([\s\S]+?)close` at the start of
`s`; on success return the captured path, the (lazy, nonempty) body and
the text following the match. -/
def matchBlock (opn cls s : Str) : Option (Str × Str × Str) :=
  if opn.isPrefixOf s then
    let t1 := s.drop opn.length
    let p := t1.takeWhile (fun c => c ≠ rb)
    if p = [] then none
    else
      let t2 := t1.drop p.length
      if [rb, rb].isPrefixOf t2 then
        match t2.drop 2 with
        | [] => none
        | c0 :: rest0 =>
          match findOcc cls rest0 with
          | none => none
          | some j => some (p, c0 :: rest0.take j, rest0.drop (j + cls.length))
      else none
  else none

/-- One global-replace pass for a block construct: `repl path body`
produces the replacement (or propagates fuel exhaustion).  The fuel is
spent one unit per consumed character, so `s.length` units suffice. -/
def scanBlockAux (opn cls : Str) (repl : Str → Str → Option Str) : Nat → Str → Option Str
  | _, [] => some []
  | 0, s => some s
  | fuel + 1, c :: s =>
    match matchBlock opn cls (c :: s) with
    | some (p, body, rest) =>
      match repl p body, scanBlockAux opn cls repl fuel rest with
      | some r, some tl => some (r ++ tl)
      | _, _ => none
    | none =>
      match scanBlockAux opn cls repl fuel s with
      | some tl => some (c :: tl)
      | none => none

def scanBlock (opn cls : Str) (repl : Str → Str → Option Str) (s : Str) : Option Str :=
  scanBlockAux opn cls repl s.length s

/-- Attempt the plain-substitution regex `{{([^}]+)}}` at the start of
`s`. -/
def matchPlain (s : Str) : Option (Str × Str) :=
  if [lb, lb].isPrefixOf s then
    let t1 := s.drop 2
    let p := t1.takeWhile (fun c => c ≠ rb)
    if p = [] then none
    else if [rb, rb].isPrefixOf (t1.drop p.length) then some (p, t1.drop (p.length + 2))
    else none
  else none

/-- `getNestedValue(data, path) || ''` followed by the string coercion of
`replace`: a truthy value inserts its textual form, everything else
(undefined, null, `0`, `''`, `false`) inserts empty text. -/
def jsShow (o : Option JVal) : Str :=
  match o with
  | none => []
  | some v => if jsTruthy v then jsString v else []

/-- The plain-substitution pass (no recursion, hence no fuel in the
result). -/
def scanPlainAux (d : JVal) : Nat → Str → Str
  | _, [] => []
  | 0, s => s
  | fuel + 1, c :: s =>
    match matchPlain (c :: s) with
    | some (p, rest) => jsShow (getNestedValue d p) ++ scanPlainAux d fuel rest
    | none => c :: scanPlainAux d fuel s

def scanPlain (d : JVal) (s : Str) : Str := scanPlainAux d s.length s

/-- Spread of a value in an object literal: objects contribute their
fields, primitives contribute nothing (string spreads, which contribute
indexed characters, are not used by any template of the system). -/
def fieldsOf : JVal → List (Str × JVal)
  | vObj fs => fs
  | _ => []

/-- The per-iteration context of an `#each` body:
`{ ...item, '@index': i, '@first': i === 0, '@last': i === n-1, '@root': data }`.
The reserved keys are written after the spread in the source and therefore
shadow item fields; with first-match lookup they are listed first. -/
def eachCtx (root : JVal) (n : Nat) (item : JVal) (i : Nat) : JVal :=
  vObj ([("@index".data, vNum (Int.ofNat i)),
         ("@first".data, vBool (decide (i = 0))),
         ("@last".data, vBool (decide (i = n - 1))),
         ("@root".data, root)] ++ fieldsOf item)

/-- Effectful map over a list of option-producing renders (the `array.map`
of the source, with fuel exhaustion propagated). -/
def optMapM (f : α → Option β) : List α → Option (List β)
  | [] => some []
  | a :: tl =>
    match f a, optMapM f tl with
    | some b, some r => some (b :: r)
    | _, _ => none

/-- Replacement callback of the `#each` pass. -/
def eachRepl (rend : Str → JVal → Option Str) (d : JVal) (p body : Str) : Option Str :=
  match getNestedValue d p with
  | some (vArr xs) =>
    match optMapM (fun pr => rend body (eachCtx d xs.length pr.2 pr.1)) xs.enum with
    | some pieces => some pieces.flatten
    | none => none
  | _ => some []

/-- Replacement callback of the `#if` pass: arrays render the body exactly
when nonempty, every other value by plain truthiness. -/
def ifRepl (rend : Str → JVal → Option Str) (d : JVal) (p body : Str) : Option Str :=
  match getNestedValue d p with
  | some (vArr xs) => if 0 < xs.length then rend body d else some []
  | o => if jsTruthyOpt o then rend body d else some []

/-- Replacement callback of the `#unless` pass: plain JavaScript
truthiness only (no array special case: an empty array is truthy here). -/
def unlessRepl (rend : Str → JVal → Option Str) (d : JVal) (p body : Str) : Option Str :=
  if jsTruthyOpt (getNestedValue d p) then some [] else rend body d

/-- `renderTemplate`, fuelled: the four passes in source order.  `none`
means the given recursion fuel was exhausted; the fuel only limits the
recursion depth of nested `renderTemplate` calls, never the scan itself. -/
def renderTemplate : Nat → Str → JVal → Option Str
  | 0, _, _ => none
  | fuel + 1, t, d =>
    match scanBlock eachOpen eachClose (eachRepl (renderTemplate fuel) d) t with
    | none => none
    | some o1 =>
      match scanBlock ifOpen ifClose (ifRepl (renderTemplate fuel) d) o1 with
      | none => none
      | some o2 =>
        match scanBlock unlessOpen unlessClose (unlessRepl (renderTemplate fuel) d) o2 with
        | none => none
        | some o3 => some (scanPlain d o3)

/-- `{{p}}` as template text. -/
def ph (p : Str) : Str := [lb, lb] ++ p ++ [rb, rb]

/-! ## Pagination planner (ssg.js, `generateSite`)

```js
if (config.pagination) {
  const itemsPerPage = config.pagination.itemsPerPage;
  const totalPages = Math.ceil(allItems.length / itemsPerPage);
  for (let page = 1; page <= totalPages; page++) {
    const pageItems = allItems.slice((page - 1) * itemsPerPage, page * itemsPerPage);
    ...
  }
} else {
  generateHTML('list', { items: allItems }, path.join(basePath, 'index.html'));
}
```

For `itemsPerPage ≥ 1` the number of executed loop iterations is the
ceiling of `length / itemsPerPage`.  For `itemsPerPage < 0` the computed
`totalPages` is `≤ 0` and the loop body never runs.  For
`itemsPerPage = 0` JavaScript yields `Infinity` (nonempty list: the loop
never terminates, modelled as `none`) or `NaN` (empty list: the comparison
fails at once and no page is emitted). -/

/-- `slice(a, b)` for `0 ≤ a ≤ b ≤ length` ranges. -/
def jsSlice (l : List α) (a b : Nat) : List α := (l.take b).drop a

/-- Number of iterations of the page loop, `none` when the loop does not
terminate. -/
def pageIterations (n : Nat) (ipp : Int) : Option Nat :=
  if 0 < ipp then some ((n + ipp.toNat - 1) / ipp.toNat)
  else if ipp < 0 then some 0
  else if n = 0 then some 0
  else none

/-- The pages emitted by the paginated branch. -/
def listPlan (items : List α) (ipp : Int) : Option (List (List α)) :=
  match pageIterations items.length ipp with
  | none => none
  | some tp => some ((List.range tp).map (fun k => jsSlice items (k * ipp.toNat) ((k + 1) * ipp.toNat)))

/-- The listing pages of `generateSite`: the whole list as a single
unpaginated page when `config.pagination` is absent, the paginated plan
otherwise. -/
def listingPlan (pagination : Option Int) (items : List α) : Option (List (List α)) :=
  match pagination with
  | none => some [items]
  | some ipp => listPlan items ipp

/-! ## Page-path resolution

`processTaxonomies` (clean style):
`page === 1 ? `${termSlug}/index.html` : `${termSlug}/page-${page}/index.html``
and the list pages of `generateSite` (pattern style):
`page === 1 ? 'index.html' : filenamePattern.replace('*', page)`. -/

/-- Clean-style term page path. -/
def termPagePath (termSlug : Str) (page : Nat) : Str :=
  if page = 1 then termSlug ++ "/index.html".data
  else termSlug ++ "/page-".data ++ natDigits page ++ "/index.html".data

/-- JavaScript `String.prototype.replace` with the string pattern `'*'`:
only the first occurrence is replaced. -/
def replaceStar : Str → Str → Str
  | [], _ => []
  | c :: cs, digits => if c = '*' then digits ++ cs else c :: replaceStar cs digits

/-- List page path under a configured filename pattern. -/
def listPagePath (pattern : Str) (page : Nat) : Str :=
  if page = 1 then "index.html".data else replaceStar pattern (natDigits page)

/-! ## Taxonomy grouping (ssg.js, `processTaxonomies`)

```js
const termsMap = new Map();
for (const item of allItems) {
  if (item[taxonomy] && Array.isArray(item[taxonomy])) {
    for (const term of item[taxonomy]) {
      const termName = term.name || term;
      const termSlug = slugify(termName);
      if (!termsMap.has(termSlug)) {
        termsMap.set(termSlug, { name: termName, items: [] });
      }
      termsMap.get(termSlug).items.push(item);
    }
  }
}
```

`slugify(termName)` is called without a registry argument, so each call
uses a fresh empty `Set` and the term slug is simply the normalized
candidate `baseSlug`.  A `Map` preserves insertion order, modelled by an
ordered association list `slug ↦ (name, items)`. -/

/-- `term.name || term`: the `name` field of a structured term reference
when present and truthy, the term value itself otherwise (property access
on a plain string yields `undefined`). -/
def termNameOf (t : JVal) : JVal :=
  match getProp t "name".data with
  | some v => if jsTruthy v then v else t
  | none => t

/-- The slug of a term entry: `slugify` against a fresh empty registry. -/
def termSlugOf (t : JVal) : Str := baseSlug (jsString (termNameOf t))

/-- One `termsMap` mutation: create the term at the end of the map if
absent (with the display name of this first encounter), then append the
item to the term's item list.  The append is unconditional, exactly as
`items.push(item)` in the source. -/
def pushTerm : List (Str × JVal × List JVal) → Str → JVal → JVal → List (Str × JVal × List JVal)
  | [], slug, nm, item => [(slug, nm, [item])]
  | (s, n, its) :: tl, slug, nm, item =>
    if s = slug then (s, n, its ++ [item]) :: tl
    else (s, n, its) :: pushTerm tl slug nm item

/-- The term entries of one item: the named attribute when it is an
array (`item[taxonomy] && Array.isArray(item[taxonomy])`; an array is
always truthy), nothing otherwise. -/
def entriesOf (item : JVal) (tax : Str) : List JVal :=
  match getProp item tax with
  | some (vArr ts) => ts
  | _ => []

/-- The grouping loop of `processTaxonomies` for one taxonomy name. -/
def indexTaxonomy (items : List JVal) (tax : Str) : List (Str × JVal × List JVal) :=
  items.foldl
    (fun acc it =>
      (entriesOf it tax).foldl
        (fun acc2 t => pushTerm acc2 (termSlugOf t) (termNameOf t) it) acc)
    []

/-- The terms-list summary page data: name, slug and item count in
first-seen order. -/
def termsList (m : List (Str × JVal × List JVal)) : List (JVal × Str × Nat) :=
  m.map (fun e => (e.2.1, e.1, e.2.2.length))

/-- The item list recorded in a terms map under a slug (empty when the
slug is absent). -/
def termItems : List (Str × JVal × List JVal) → Str → List JVal
  | [], _ => []
  | (s, _, its) :: tl, slug => if s = slug then its else termItems tl slug

/-! ## Concrete verification inputs -/

/-- The spec's loop example template
`{{#each items}}{{name}}-{{@index}};{{/each}}`. -/
def exT : Str :=
  eachOpen ++ "items".data ++ [rb, rb] ++ ph "name".data ++ ['-'] ++ ph "@index".data ++ [';'] ++ eachClose

/-- The spec's loop example context `{items: [{name: "a"}, {name: "b"}]}`. -/
def exD : JVal :=
  vObj [("items".data,
         vArr [vObj [("name".data, vStr "a".data)], vObj [("name".data, vStr "b".data)]])]

/-- A `#if` block template `{{#if p}}body{{/if}}` (right-nested appends
for the lemmas below). -/
def ifTmpl (p body : Str) : Str := ifOpen ++ (p ++ ([rb, rb] ++ (body ++ ifClose)))

/-- A `#unless` block template `{{#unless p}}body{{/unless}}`. -/
def unlessTmpl (p body : Str) : Str := unlessOpen ++ (p ++ ([rb, rb] ++ (body ++ unlessClose)))

/-- `{{#if tags}}yes{{/if}}`. -/
def ifT : Str := ifOpen ++ "tags".data ++ [rb, rb] ++ "yes".data ++ ifClose

/-- `{{#unless tags}}no{{/unless}}`. -/
def unT : Str := unlessOpen ++ "tags".data ++ [rb, rb] ++ "no".data ++ unlessClose

/-- `{tags: []}`. -/
def dEmptyTags : JVal := vObj [("tags".data, vArr [])]

/-- `{tags: ["x"]}`. -/
def dFullTags : JVal := vObj [("tags".data, vArr [vStr "x".data])]

/-- `{{#each xs}}{{v}}{{/each}}`: the template of the divergence input. -/
def t9 : Str := eachOpen ++ "xs".data ++ [rb, rb] ++ ph "v".data ++ eachClose

/-- The data string `{{#if c}}{{#each xs}}{{v}}{{/each}}{{/if}}`: rendering
it re-renders `t9` against the same data. -/
def p9 : Str := ifOpen ++ "c".data ++ [rb, rb] ++ t9 ++ ifClose

/-- The single item `{v: p9}` of the divergence input. -/
def item9 : JVal := vObj [("v".data, vStr p9)]

/-- The divergence context `{c: 1, xs: [{v: p9}]}`. -/
def d9 : JVal := vObj [("c".data, vNum 1), ("xs".data, vArr [item9])]

/-- An item tagged `["action", "retro"]`. -/
def i1 : JVal := vObj [("genres".data, vArr [vStr "action".data, vStr "retro".data])]

/-- An item tagged `["retro"]`. -/
def i2 : JVal := vObj [("genres".data, vArr [vStr "retro".data])]

/-- An item whose attribute list references the same term twice. -/
def iDup : JVal := vObj [("tags".data, vArr [vStr "x".data, vStr "x".data])]

/-! # Theorems

Auxiliary lemmas first, then one named theorem per claim (with its witness
or counterexample where required). -/

/-! ## Decimal numeral lemmas -/

lemma digitChar_isDigit {d : Nat} (h : d ≤ 9) : (digitChar d).isDigit = true := by
  interval_cases d <;> decide

lemma natDigitsAux_ne_nil : ∀ f n, n < f → natDigitsAux f n ≠ [] := by
  intro f
  induction f with
  | zero => intro n h; omega
  | succ f ih =>
    intro n _
    by_cases h10 : n < 10
    · simp [natDigitsAux, h10]
    · simp only [natDigitsAux, if_neg h10]
      intro h
      exact absurd (List.append_eq_nil.mp h).2 (by simp)

lemma natDigitsAux_digit : ∀ f n c, n < f → c ∈ natDigitsAux f n → c.isDigit = true := by
  intro f
  induction f with
  | zero => intro n c h; omega
  | succ f ih =>
    intro n c hn hc
    by_cases h10 : n < 10
    · simp only [natDigitsAux, if_pos h10, List.mem_singleton] at hc
      exact hc ▸ digitChar_isDigit (by omega)
    · simp only [natDigitsAux, if_neg h10, List.mem_append, List.mem_singleton] at hc
      rcases hc with hc | hc
      · exact ih (n / 10) c (by omega) hc
      · exact hc ▸ digitChar_isDigit (by omega)

lemma natDigitsAux_len_le : ∀ f n k, n < f → 1 ≤ k → n < 10 ^ k → (natDigitsAux f n).length ≤ k := by
  intro f
  induction f with
  | zero => intro n k h; omega
  | succ f ih =>
    intro n k hn hk hnk
    by_cases h10 : n < 10
    · simp [natDigitsAux, if_pos h10]; omega
    · simp only [natDigitsAux, if_neg h10, List.length_append, List.length_singleton]
      have hk2 : 2 ≤ k := by
        by_contra hlt
        have : k = 1 := by omega
        subst this
        simp at hnk
        omega
      have hdiv : n / 10 < 10 ^ (k - 1) := by
        rw [Nat.div_lt_iff_lt_mul (by norm_num)]
        calc n < 10 ^ k := hnk
        _ = 10 ^ (k - 1) * 10 := by
              rw [← pow_succ]
              congr 1
              omega
      have hrec := ih (n / 10) (k - 1) (by omega) (by omega) hdiv
      omega

lemma natDigitsAux_len_ge : ∀ f n k, n < f → 10 ^ k ≤ n → k + 1 ≤ (natDigitsAux f n).length := by
  intro f
  induction f with
  | zero => intro n k h; omega
  | succ f ih =>
    intro n k hn hkn
    by_cases h10 : n < 10
    · have hk : k = 0 := by
        by_contra h
        have h1 : 1 ≤ k := by omega
        have : 10 ^ 1 ≤ 10 ^ k := Nat.pow_le_pow_right (by norm_num) h1
        simp at this
        omega
      subst hk
      simp [natDigitsAux, if_pos h10]
    · simp only [natDigitsAux, if_neg h10, List.length_append, List.length_singleton]
      rcases Nat.eq_zero_or_pos k with hk | hk
      · subst hk
        have := natDigitsAux_ne_nil f (n / 10) (by omega)
        have : 0 < (natDigitsAux f (n / 10)).length := List.length_pos.mpr this
        omega
      · have hdiv : 10 ^ (k - 1) ≤ n / 10 := by
          rw [Nat.le_div_iff_mul_le (by norm_num)]
          calc 10 ^ (k - 1) * 10 = 10 ^ k := by
                rw [← pow_succ]
                congr 1
                omega
          _ ≤ n := hkn
        have hrec := ih (n / 10) (k - 1) (by omega) hdiv
        omega

lemma natDigits_ne_nil (n : Nat) : natDigits n ≠ [] :=
  natDigitsAux_ne_nil (n + 1) n (Nat.lt_succ_self n)

lemma natDigits_digit {n : Nat} {c : Char} (hc : c ∈ natDigits n) : c.isDigit = true :=
  natDigitsAux_digit (n + 1) n c (Nat.lt_succ_self n) hc

lemma natDigits_len_le {n k : Nat} (hk : 1 ≤ k) (h : n < 10 ^ k) : (natDigits n).length ≤ k :=
  natDigitsAux_len_le (n + 1) n k (Nat.lt_succ_self n) hk h

lemma natDigits_len_ge {n k : Nat} (h : 10 ^ k ≤ n) : k + 1 ≤ (natDigits n).length :=
  natDigitsAux_len_ge (n + 1) n k (Nat.lt_succ_self n) h

lemma natDigits_len_pos (n : Nat) : 1 ≤ (natDigits n).length :=
  List.length_pos.mpr (natDigits_ne_nil n)

lemma isDigit_isWordCh {c : Char} (h : c.isDigit = true) : isWordCh c = true := by
  simp [isWordCh, Char.isAlphanum, h]

lemma isDigit_ne_hyphen {c : Char} (h : c.isDigit = true) : c ≠ '-' := by
  intro hc
  subst hc
  simp [Char.isDigit] at h

/-! ## Candidate and uniqueness-loop lemmas -/

lemma candidate_length_ge2 (slug : Str) (c : Nat) : 2 ≤ (candidate slug c).length := by
  have h := natDigits_len_pos c
  simp only [candidate]
  split <;> simp <;> omega

lemma candidate_length_le {c : Nat} (slug : Str) (h : (natDigits c).length ≤ 29) :
    (candidate slug c).length ≤ 30 := by
  simp only [candidate]
  split <;> simp [List.length_take] <;> omega

lemma candidate_big_eq {c : Nat} (slug : Str) (h : 30 ≤ (natDigits c).length) :
    candidate slug c = '-' :: natDigits c := by
  have h0 : 30 - ('-' :: natDigits c).length = 0 := by simp; omega
  simp only [candidate, h0, List.take_zero]
  simp

lemma tenpow29_digits_len : (natDigits (10 ^ 29)).length = 30 := by
  have h1 : (natDigits (10 ^ 29)).length ≤ 30 :=
    natDigits_len_le (by norm_num) (by norm_num)
  have h2 : 30 ≤ (natDigits (10 ^ 29)).length := by
    have := natDigits_len_ge (le_refl (10 ^ 29))
    omega
  omega

lemma counterCap_lt_pow16 : counterCap < 10 ^ 16 := by
  norm_num [counterCap]

lemma digits_le_16 {c : Nat} (h : c ≤ counterCap) : (natDigits c).length ≤ 16 :=
  natDigits_len_le (by norm_num) (lt_of_le_of_lt h counterCap_lt_pow16)

lemma uniqLoop_some_spec {reg : Registry} {slug : Str} :
    ∀ (fuel c : Nat) (s : Str), c ≤ counterCap → uniqLoop reg slug fuel c = some s →
    ∃ N, c ≤ N ∧ N ≤ counterCap ∧ s = candidate slug N ∧ candidate slug N ∉ reg ∧
      ∀ k, c ≤ k → k < N → candidate slug k ∈ reg := by
  intro fuel
  induction fuel with
  | zero => intro c s _ h; exact absurd h (by simp [uniqLoop])
  | succ fuel ih =>
    intro c s hc h
    by_cases hm : candidate slug c ∈ reg
    · rw [show uniqLoop reg slug (fuel + 1) c = uniqLoop reg slug fuel (jsInc c) from by
        simp [uniqLoop, hm]] at h
      by_cases hlt : c < counterCap
      · rw [show jsInc c = c + 1 from by simp [jsInc, hlt]] at h
        obtain ⟨N, hN1, hN2, hN3, hN4, hN5⟩ := ih (c + 1) s (by omega) h
        refine ⟨N, by omega, hN2, hN3, hN4, ?_⟩
        intro k hk1 hk2
        rcases Nat.eq_or_lt_of_le hk1 with rfl | hk
        · exact hm
        · exact hN5 k (by omega) hk2
      · rw [show jsInc c = c from by simp [jsInc, hlt]] at h
        obtain ⟨N, hN1, hN2, _, hN4, _⟩ := ih c s hc h
        have hNc : N = c := by omega
        exact absurd hm (hNc ▸ hN4)
    · rw [show uniqLoop reg slug (fuel + 1) c = some (candidate slug c) from by
        simp [uniqLoop, hm]] at h
      injection h with h1
      exact ⟨c, le_refl c, hc, h1.symm, hm,
        fun k hk1 hk2 => absurd (lt_of_le_of_lt hk1 hk2) (lt_irrefl c)⟩

lemma uniqLoop_eq_of_least {reg : Registry} {slug : Str} :
    ∀ (fuel c m : Nat), c ≤ m → m < c + fuel → m ≤ counterCap → candidate slug m ∉ reg →
    (∀ k, c ≤ k → k < m → candidate slug k ∈ reg) →
    uniqLoop reg slug fuel c = some (candidate slug m) := by
  intro fuel
  induction fuel with
  | zero => intro c m h1 h2 _ _ _; omega
  | succ fuel ih =>
    intro c m h1 h2 h3 h4 h5
    by_cases hc : candidate slug c ∈ reg
    · have hne : c ≠ m := fun h => h4 (h ▸ hc)
      have hlt : c < counterCap := by omega
      rw [show uniqLoop reg slug (fuel + 1) c = uniqLoop reg slug fuel (jsInc c) from by
        simp [uniqLoop, hc], show jsInc c = c + 1 from by simp [jsInc, hlt]]
      exact ih (c + 1) m (by omega) (by omega) h3 h4 (fun k hk1 hk2 => h5 k (by omega) hk2)
    · have hm : m = c := by
        by_contra h
        exact hc (h5 c (le_refl c) (by omega))
      rw [show uniqLoop reg slug (fuel + 1) c = some (candidate slug c) from by
        simp [uniqLoop, hc], hm]

lemma least_free_exists {reg : Registry} {slug : Str}
    (hex : ∃ c, 2 ≤ c ∧ c ≤ counterCap ∧ candidate slug c ∉ reg) :
    ∃ m, 2 ≤ m ∧ m ≤ counterCap ∧ candidate slug m ∉ reg ∧
      ∀ k, 2 ≤ k → k < m → candidate slug k ∈ reg := by
  classical
  obtain ⟨c0, hc02, hc0cap, hc0free⟩ := hex
  have hex' : ∃ j, candidate slug (2 + j) ∉ reg := ⟨c0 - 2, by
    rw [show 2 + (c0 - 2) = c0 from by omega]
    exact hc0free⟩
  refine ⟨2 + Nat.find hex', by omega, ?_, Nat.find_spec hex', ?_⟩
  · have := Nat.find_min' hex' (m := c0 - 2) (by
      rw [show 2 + (c0 - 2) = c0 from by omega]
      exact hc0free)
    omega
  · intro k hk1 hk2
    have hj := Nat.find_min hex' (m := k - 2) (by omega)
    rw [show 2 + (k - 2) = k from by omega] at hj
    exact not_not.mp hj

lemma slugify_of_notMem {reg : Registry} {input : Str} (h : baseSlug input ∉ reg) :
    slugify reg input = some (baseSlug input, baseSlug input :: reg) := by
  simp [slugify, h]

lemma slugify_loop_case {reg : Registry} {input : Str} (h : baseSlug input ∈ reg)
    (hex : ∃ c, 2 ≤ c ∧ c ≤ counterCap ∧ candidate (baseSlug input) c ∉ reg) :
    ∃ m, 2 ≤ m ∧ m ≤ counterCap ∧
      slugify reg input =
        some (candidate (baseSlug input) m, candidate (baseSlug input) m :: reg) ∧
      candidate (baseSlug input) m ∉ reg ∧
      ∀ k, 2 ≤ k → k < m → candidate (baseSlug input) k ∈ reg := by
  obtain ⟨m, hm2, hmcap, hfree, hleast⟩ := least_free_exists hex
  refine ⟨m, hm2, hmcap, ?_, hfree, hleast⟩
  have hloop : uniqLoop reg (baseSlug input) counterCap 2 = some (candidate (baseSlug input) m) :=
    uniqLoop_eq_of_least counterCap 2 m hm2 (by
      have h2cap : (2 : Nat) ≤ counterCap := by norm_num [counterCap]
      omega) hmcap hfree hleast
  simp [slugify, h, hloop]

lemma slugify_some {reg : Registry} {input s : Str} {reg2 : Registry}
    (h : slugify reg input = some (s, reg2)) :
    reg2 = s :: reg ∧
    ((baseSlug input ∉ reg ∧ s = baseSlug input) ∨
      (baseSlug input ∈ reg ∧
        ∃ N, 2 ≤ N ∧ N ≤ counterCap ∧ s = candidate (baseSlug input) N ∧
          candidate (baseSlug input) N ∉ reg ∧
          ∀ k, 2 ≤ k → k < N → candidate (baseSlug input) k ∈ reg)) := by
  by_cases hmem : baseSlug input ∈ reg
  · simp only [slugify, if_pos hmem] at h
    cases hu : uniqLoop reg (baseSlug input) counterCap 2 with
    | none => rw [hu] at h; exact absurd h (by simp)
    | some s0 =>
      rw [hu] at h
      simp only [Option.some.injEq, Prod.mk.injEq] at h
      obtain ⟨hs, hr⟩ := h
      obtain ⟨N, hN2, hNcap, hNeq, hNfree, hNleast⟩ :=
        uniqLoop_some_spec counterCap 2 s0 (by norm_num [counterCap]) hu
      refine ⟨by rw [← hr, hs], Or.inr ⟨hmem, N, hN2, hNcap, ?_, hNfree, hNleast⟩⟩
      rw [← hs]
      exact hNeq
  · rw [slugify_of_notMem hmem] at h
    simp only [Option.some.injEq, Prod.mk.injEq] at h
    exact ⟨by rw [← h.2, h.1], Or.inl ⟨hmem, h.1.symm⟩⟩

/-! ## Normalization pipeline invariants -/

lemma mem_collWsAux : ∀ (b : Bool) (s : List Char) (c : Char), c ∈ collWsAux b s → c ∈ s ∨ c = '-' := by
  intro b s
  induction s generalizing b with
  | nil => intro c h; simp [collWsAux] at h
  | cons a tl ih =>
    intro c h
    simp only [collWsAux] at h
    by_cases ha : isWsCh a
    · rw [if_pos ha] at h
      by_cases hb : b
      · rw [if_pos hb] at h
        rcases ih true c h with h | h
        · exact Or.inl (List.mem_cons_of_mem a h)
        · exact Or.inr h
      · rw [if_neg hb] at h
        rcases List.mem_cons.mp h with h | h
        · exact Or.inr h
        · rcases ih true c h with h | h
          · exact Or.inl (List.mem_cons_of_mem a h)
          · exact Or.inr h
    · rw [if_neg ha] at h
      rcases List.mem_cons.mp h with h | h
      · exact Or.inl (h ▸ List.mem_cons_self a tl)
      · rcases ih false c h with h | h
        · exact Or.inl (List.mem_cons_of_mem a h)
        · exact Or.inr h

lemma mem_collHyAux : ∀ (b : Bool) (s : List Char) (c : Char), c ∈ collHyAux b s → c ∈ s := by
  intro b s
  induction s generalizing b with
  | nil => intro c h; simp [collHyAux] at h
  | cons a tl ih =>
    intro c h
    simp only [collHyAux] at h
    by_cases ha : a = '-'
    · rw [if_pos ha] at h
      by_cases hb : b
      · rw [if_pos hb] at h
        exact List.mem_cons_of_mem a (ih true c h)
      · rw [if_neg hb] at h
        rcases List.mem_cons.mp h with h | h
        · exact h ▸ ha ▸ List.mem_cons_self a tl
        · exact List.mem_cons_of_mem a (ih true c h)
    · rw [if_neg ha] at h
      rcases List.mem_cons.mp h with h | h
      · exact h ▸ List.mem_cons_self a tl
      · exact List.mem_cons_of_mem a (ih false c h)

lemma trimEndHy_isPre (s : Str) : trimEndHy s <+: s := by
  have h := List.dropWhile_suffix (l := s.reverse) (fun c => c = '-')
  have h2 := List.reverse_prefix.mpr h
  rwa [List.reverse_reverse] at h2

lemma mem_trimEndHy {s : Str} {c : Char} (h : c ∈ trimEndHy s) : c ∈ s :=
  (trimEndHy_isPre s).sublist.subset h

lemma head?_dropWhile {p : Char → Bool} : ∀ {s : List Char} {a : Char},
    (s.dropWhile p).head? = some a → p a = false := by
  intro s
  induction s with
  | nil => intro a h; simp [List.dropWhile] at h
  | cons x tl ih =>
    intro a h
    by_cases hx : p x
    · rw [List.dropWhile_cons_of_pos hx] at h
      exact ih h
    · rw [List.dropWhile_cons_of_neg hx] at h
      simp at h
      rw [← h]
      exact Bool.not_eq_true _ ▸ (by simpa using hx)

lemma isPre_head? {s t : Str} {a : Char} (hp : t <+: s) (h : t.head? = some a) :
    s.head? = some a := by
  obtain ⟨u, rfl⟩ := hp
  cases t with
  | nil => simp at h
  | cons x tl => simpa using h

lemma rawSlug_chars {input : Str} {c : Char} (h : c ∈ rawSlug input) :
    isWordCh c = true ∨ c = '-' := by
  simp only [rawSlug] at h
  have h6 := mem_trimEndHy h
  have h5 := (List.dropWhile_suffix (fun c => c = '-')).sublist.subset h6
  have h4 := mem_collHyAux _ _ _ h5
  have h3 := List.mem_of_mem_filter h4
  have := List.mem_filter.mp h3
  simpa using this.2

lemma rawSlug_head {input : Str} {a : Char} (h : (rawSlug input).head? = some a) : a ≠ '-' := by
  simp only [rawSlug] at h
  have h2 := isPre_head? (trimEndHy_isPre _) h
  have := head?_dropWhile h2
  simpa using this

lemma rawSlug_last {input : Str} {a : Char} (h : (rawSlug input).getLast? = some a) : a ≠ '-' := by
  simp only [rawSlug] at h
  rw [← List.head?_reverse] at h
  have hrev : (trimEndHy ((collHyAux false (((collWsAux false (input.map Char.toLower)).filter
      (fun c => isWordCh c || c = '-')).filter (fun c => c ≠ '*'))).dropWhile (fun c => c = '-'))).reverse
      = ((collHyAux false (((collWsAux false (input.map Char.toLower)).filter
      (fun c => isWordCh c || c = '-')).filter (fun c => c ≠ '*'))).dropWhile (fun c => c = '-')).reverse.dropWhile (fun c => c = '-') := by
    simp [trimEndHy]
  rw [hrev] at h
  have := head?_dropWhile h
  simpa using this

lemma collHyAux_cons_hy_true (tl : List Char) : collHyAux true ('-' :: tl) = collHyAux true tl := by
  simp [collHyAux]

lemma collHyAux_cons_hy_false (tl : List Char) :
    collHyAux false ('-' :: tl) = '-' :: collHyAux true tl := by
  simp [collHyAux]

lemma collHyAux_cons_nohy {a : Char} (b : Bool) (tl : List Char) (h : a ≠ '-') :
    collHyAux b (a :: tl) = a :: collHyAux false tl := by
  simp [collHyAux, h]

lemma collHyAux_chain : ∀ (s : List Char) (b : Bool),
    List.Chain' (fun a c => ¬(a = '-' ∧ c = '-')) (collHyAux b s) ∧
      (b = true → (collHyAux b s).head? ≠ some '-') := by
  intro s
  induction s with
  | nil => simp [collHyAux]
  | cons a tl ih =>
    intro b
    by_cases ha : a = '-'
    · subst ha
      cases b with
      | true =>
        rw [collHyAux_cons_hy_true]
        exact ⟨(ih true).1, fun _ => (ih true).2 rfl⟩
      | false =>
        rw [collHyAux_cons_hy_false]
        constructor
        · rw [List.chain'_cons']
          refine ⟨?_, (ih true).1⟩
          intro y hy hcon
          rw [Option.mem_def] at hy
          exact (ih true).2 rfl (by rw [hy, hcon.2])
        · intro h
          simp at h
    · rw [collHyAux_cons_nohy b tl ha]
      constructor
      · rw [List.chain'_cons']
        refine ⟨?_, (ih false).1⟩
        intro y _ hcon
        exact ha hcon.1
      · intro _
        simp [ha]

lemma rawSlug_chain (input : Str) :
    List.Chain' (fun a c => ¬(a = '-' ∧ c = '-')) (rawSlug input) := by
  simp only [rawSlug]
  exact List.Chain'.prefix
    ((collHyAux_chain _ false).1.suffix (List.dropWhile_suffix _)) (trimEndHy_isPre _)

lemma head?_take_succ (s : Str) (n : Nat) : (s.take (n + 1)).head? = s.head? := by
  cases s <;> simp

lemma getLast?_take_eq_get? (s : Str) (n : Nat) (h : n < s.length) :
    (s.take (n + 1)).getLast? = s.get? n := by
  have h1 : (s.take (n + 1)).length = n + 1 := by simp; omega
  rw [List.getLast?_eq_getElem?]
  rw [h1]
  simp

lemma chain'_get?_hyphen {s : Str} (hc : List.Chain' (fun a c => ¬(a = '-' ∧ c = '-')) s)
    {n : Nat} (h : s.get? (n + 1) = some '-') : s.get? n ≠ some '-' := by
  intro hn
  have hlen : n + 1 < s.length := by
    by_contra hl
    rw [List.get?_eq_none.mpr (by omega)] at h
    simp at h
  have hget := List.chain'_iff_get.mp hc n (by omega)
  rw [List.get?_eq_get (by omega)] at hn
  rw [List.get?_eq_get (by omega)] at h
  apply hget
  constructor
  · exact Option.some_injective _ hn
  · exact Option.some_injective _ h

lemma baseSlug_facts (input : Str) :
    2 ≤ (baseSlug input).length ∧ (baseSlug input).length ≤ 30 ∧
    (∀ c ∈ baseSlug input, isWordCh c = true ∨ c = '-') ∧
    (baseSlug input).head? ≠ some '-' ∧
    (baseSlug input).getLast? ≠ some '-' := by
  have hchars := fun c (hc : c ∈ rawSlug input) => rawSlug_chars hc
  have hhead := fun a (ha : (rawSlug input).head? = some a) => rawSlug_head ha
  have hlast := fun a (ha : (rawSlug input).getLast? = some a) => rawSlug_last ha
  have hchain := rawSlug_chain input
  simp only [baseSlug]
  by_cases h0 : rawSlug input = []
  · rw [if_pos h0]
    decide
  · rw [if_neg h0]
    by_cases h1 : (rawSlug input).length < 2
    · rw [if_pos h1]
      have hlen1 : (rawSlug input).length = 1 := by
        have := List.length_pos.mpr h0
        omega
      obtain ⟨c, hc⟩ := List.length_eq_one.mp hlen1
      rw [hc]
      have h2 : ¬(30 < ([c] ++ List.replicate (2 - [c].length) '0').length) := by simp
      rw [if_neg h2]
      refine ⟨by simp, by simp, ?_, ?_, ?_⟩
      · intro x hx
        simp at hx
        rcases hx with hx | hx
        · exact hchars x (by rw [hc]; simp [hx])
        · subst hx
          left
          decide
      · simp only [List.replicate, List.singleton_append, List.head?_cons]
        intro hcon
        exact hhead c (by rw [hc]; rfl) (by simpa using hcon)
      · simp [List.replicate]
    · rw [if_neg h1]
      by_cases h2 : 30 < (rawSlug input).length
      · rw [if_pos h2]
        by_cases h3 : ((rawSlug input).take 30).getLast? = some '-'
        · rw [if_pos h3]
          have h29 : ((rawSlug input).take 29).length = 29 := by simp; omega
          refine ⟨by omega, by omega, ?_, ?_, ?_⟩
          · intro x hx
            exact hchars x ((List.take_sublist _ _).subset hx)
          · have : (29 : Nat) = 28 + 1 := by norm_num
            rw [this, head?_take_succ]
            intro hcon
            exact hhead '-' hcon rfl
          · have e30 : (30 : Nat) = 29 + 1 := by norm_num
            have e29 : (29 : Nat) = 28 + 1 := by norm_num
            rw [e30, getLast?_take_eq_get? _ _ (by omega)] at h3
            rw [e29, getLast?_take_eq_get? _ _ (by omega)]
            exact chain'_get?_hyphen hchain h3
        · rw [if_neg h3]
          have h30 : ((rawSlug input).take 30).length = 30 := by simp; omega
          refine ⟨by omega, by omega, ?_, ?_, h3⟩
          · intro x hx
            exact hchars x ((List.take_sublist _ _).subset hx)
          · have : (30 : Nat) = 29 + 1 := by norm_num
            rw [this, head?_take_succ]
            intro hcon
            exact hhead '-' hcon rfl
      · rw [if_neg h2]
        refine ⟨by omega, by omega, hchars, ?_, ?_⟩
        · intro hcon
          exact hhead '-' hcon rfl
        · intro hcon
          exact hlast '-' hcon rfl

/-! ## Candidate character lemmas and the adversarial registry -/

lemma candidate_chars {slug : Str} {c : Nat} {x : Char} (hx : x ∈ candidate slug c) :
    x ∈ slug ∨ x = '-' ∨ x.isDigit = true := by
  simp only [candidate] at hx
  have base_sub : ∀ y ∈ (slug.take (30 - ('-' :: natDigits c).length)), y ∈ slug :=
    fun y hy => (List.take_sublist _ _).subset hy
  have suffix_mem : ∀ y ∈ ('-' :: natDigits c), y = '-' ∨ y.isDigit = true := by
    intro y hy
    rcases List.mem_cons.mp hy with hy | hy
    · exact Or.inl hy
    · exact Or.inr (natDigits_digit hy)
  split at hx
  · rcases List.mem_append.mp hx with hx | hx
    · exact Or.inl (base_sub x ((List.dropLast_sublist _).subset hx))
    · rcases suffix_mem x hx with h | h
      · exact Or.inr (Or.inl h)
      · exact Or.inr (Or.inr h)
  · rcases List.mem_append.mp hx with hx | hx
    · exact Or.inl (base_sub x hx)
    · rcases suffix_mem x hx with h | h
      · exact Or.inr (Or.inl h)
      · exact Or.inr (Or.inr h)

lemma candidate_getLast? {slug : Str} (c : Nat) :
    (candidate slug c).getLast? = ('-' :: natDigits c).getLast? := by
  simp only [candidate]
  split <;> exact List.getLast?_append_of_ne_nil _ (by simp)

lemma candidate_last_not_hyphen (slug : Str) (c : Nat) :
    (candidate slug c).getLast? ≠ some '-' := by
  rw [candidate_getLast?]
  intro h
  have hmem : '-' ∈ '-' :: natDigits c := List.mem_of_mem_getLast? (by rw [Option.mem_def, h])
  have hlast := h
  cases hl : (natDigits c) with
  | nil => exact natDigits_ne_nil c hl
  | cons d tl =>
    rw [hl] at hlast
    have : ('-' :: d :: tl).getLast? = (d :: tl).getLast? := by
      rw [List.getLast?_cons_cons]
    rw [this] at hlast
    have hdm : '-' ∈ d :: tl := List.mem_of_mem_getLast? (by rw [Option.mem_def, hlast])
    have : ('-' : Char).isDigit = true := by
      rw [← hl] at hdm
      exact natDigits_digit hdm
    simp [Char.isDigit] at this

lemma head?_append_left {l₁ l₂ : Str} (h : l₁ ≠ []) : (l₁ ++ l₂).head? = l₁.head? := by
  cases l₁ with
  | nil => exact absurd rfl h
  | cons a t => simp

lemma head?_dropLast {l : Str} (h : 2 ≤ l.length) : l.dropLast.head? = l.head? := by
  cases l with
  | nil => simp at h
  | cons a t =>
    cases t with
    | nil => simp at h
    | cons b u => simp [List.dropLast]

lemma candidate_head_not_hyphen {slug : Str} {c : Nat}
    (hslug : slug.head? ≠ some '-') (hlen : 2 ≤ slug.length)
    (hd : (natDigits c).length ≤ 28) :
    (candidate slug c).head? ≠ some '-' := by
  have hk : 1 ≤ 30 - ('-' :: natDigits c).length := by simp; omega
  set base := slug.take (30 - ('-' :: natDigits c).length) with hbase
  have hbase_head : base.head? = slug.head? := by
    rw [hbase]
    obtain ⟨k, hk'⟩ : ∃ k, 30 - ('-' :: natDigits c).length = k + 1 :=
      ⟨30 - ('-' :: natDigits c).length - 1, by omega⟩
    rw [hk']
    exact head?_take_succ slug k
  have hbase_len : 1 ≤ base.length := by
    rw [hbase]
    simp [List.length_take]
    omega
  have hbase_ne : base ≠ [] := by
    intro h
    rw [h] at hbase_len
    simp at hbase_len
  simp only [candidate]
  rw [← hbase]
  split
  · rename_i hl
    have hb2 : 2 ≤ base.length := by
      rcases Nat.lt_or_ge base.length 2 with h2 | h2
      · exfalso
        have : base.length = 1 := by omega
        obtain ⟨x, hx⟩ := List.length_eq_one.mp this
        rw [hx] at hl
        simp at hl
        rw [hx] at hbase_head
        simp at hbase_head
        exact hslug (by rw [← hbase_head, hl])
      · exact h2
    have hdl_ne : base.dropLast ≠ [] := by
      have := List.length_dropLast base
      intro h
      rw [h] at this
      simp at this
      omega
    rw [head?_append_left hdl_ne, head?_dropLast hb2, hbase_head]
    exact hslug
  · rw [head?_append_left hbase_ne, hbase_head]
    exact hslug

lemma ws_cases {c : Char} (h : isWsCh c = true) :
    c = ' ' ∨ c = '\t' ∨ c = '\r' ∨ c = '\n' := by
  simp only [isWsCh, Char.isWhitespace] at h
  simp only [Bool.or_eq_true, decide_eq_true_eq] at h
  tauto

lemma wordOrHyphen_not_ws {c : Char} (h : isWordCh c = true ∨ c = '-') : isWsCh c = false := by
  by_contra hw
  have hw' : isWsCh c = true := by
    revert hw
    cases isWsCh c <;> simp
  rcases ws_cases hw' with rfl | rfl | rfl | rfl <;>
    rcases h with h | h <;> simp_all [isWordCh]

/-- Claim C10: every slug the assigner can return is non-empty, every
character is a word character (letter, digit, underscore) or a hyphen —
hence it contains no whitespace — and it neither begins nor ends with a
hyphen.  The counter of the uniqueness loop is an IEEE-754 double and can
never pass `2 ^ 53`, so a returned suffix has at most 17 characters and the
truncated base always keeps the candidate's non-hyphen first character. -/
theorem claim_C10_slug_charset :
    ∀ (reg : Registry) (input s : Str) (reg2 : Registry),
      slugify reg input = some (s, reg2) →
      s ≠ [] ∧
      (∀ c ∈ s, isWordCh c = true ∨ c = '-') ∧
      (∀ c ∈ s, isWsCh c = false) ∧
      s.head? ≠ some '-' ∧
      s.getLast? ≠ some '-' := by
  intro reg input s reg2 h
  obtain ⟨hlen2, hlen30, hchars, hhead, hlast⟩ := baseSlug_facts input
  obtain ⟨_, hcase⟩ := slugify_some h
  rcases hcase with ⟨hnot, hs⟩ | ⟨hmem, N, hN2, hNcap, hNeq, hNfree, hNleast⟩
  · subst hs
    refine ⟨?_, hchars, fun c hc => wordOrHyphen_not_ws (hchars c hc), hhead, hlast⟩
    intro hnil
    rw [hnil] at hlen2
    simp at hlen2
  · subst hNeq
    have hcand_chars : ∀ c ∈ candidate (baseSlug input) N, isWordCh c = true ∨ c = '-' := by
      intro c hc
      rcases candidate_chars hc with hc | hc | hc
      · exact hchars c hc
      · exact Or.inr hc
      · exact Or.inl (isDigit_isWordCh hc)
    refine ⟨?_, hcand_chars, fun c hc => wordOrHyphen_not_ws (hcand_chars c hc), ?_,
      candidate_last_not_hyphen _ _⟩
    · intro hnil
      have := candidate_length_ge2 (baseSlug input) N
      rw [hnil] at this
      simp at this
    · exact candidate_head_not_hyphen hhead hlen2 (by
        have := digits_le_16 hNcap
        omega)

/-- Witness for C10 at a concrete input: `slugify` on the empty registry
and label `cats`. -/
theorem claim_C10_witness :
    slugify [] "cats".data = some ("cats".data, ["cats".data]) ∧
    (("cats".data : Str) ≠ [] ∧
      (∀ c ∈ ("cats".data : Str), isWordCh c = true ∨ c = '-') ∧
      (∀ c ∈ ("cats".data : Str), isWsCh c = false) ∧
      ("cats".data : Str).head? ≠ some '-' ∧
      ("cats".data : Str).getLast? ≠ some '-') :=
  ⟨by decide, claim_C10_slug_charset [] "cats".data "cats".data ["cats".data] (by decide)⟩

/-- Claim C1: whenever `slugify` returns, the returned slug has length
between 2 and 30, was not present in the registry before the call, and is
registered (consed onto the registry) on return; when the normalized
candidate is already registered the result is the suffixed candidate with
the smallest counter `N ≥ 2` whose candidate is unused; the loop does
return whenever some candidate with a representable suffix counter (the
counter is an IEEE-754 double and can never pass `2 ^ 53`) is unused; and
calling `assign("cats")` twice starting from the empty registry yields
`cats` then `cats-2`. -/
theorem claim_C1_slug_assign :
    (∀ (reg : Registry) (input s : Str) (reg2 : Registry),
      slugify reg input = some (s, reg2) →
      2 ≤ s.length ∧ s.length ≤ 30 ∧ s ∉ reg ∧ reg2 = s :: reg ∧
      (baseSlug input ∈ reg →
        ∃ N, 2 ≤ N ∧ s = candidate (baseSlug input) N ∧
          candidate (baseSlug input) N ∉ reg ∧
          ∀ k, 2 ≤ k → k < N → candidate (baseSlug input) k ∈ reg)) ∧
    (∀ (reg : Registry) (input : Str),
      (baseSlug input ∈ reg →
        ∃ c, 2 ≤ c ∧ c ≤ counterCap ∧ candidate (baseSlug input) c ∉ reg) →
      ∃ p, slugify reg input = some p) ∧
    slugify [] "cats".data = some ("cats".data, ["cats".data]) ∧
    slugify ["cats".data] "cats".data = some ("cats-2".data, ["cats-2".data, "cats".data]) := by
  refine ⟨?_, ?_, by decide, by decide⟩
  · intro reg input s reg2 h
    obtain ⟨hreg2, hcase⟩ := slugify_some h
    rcases hcase with ⟨hnot, hs⟩ | ⟨hmem, N, hN2, hNcap, hNeq, hNfree, hNleast⟩
    · obtain ⟨h1, h2, _, _, _⟩ := baseSlug_facts input
      subst hs
      exact ⟨h1, h2, hnot, hreg2, fun hc => absurd hc hnot⟩
    · subst hNeq
      refine ⟨candidate_length_ge2 _ _, candidate_length_le _ (by
        have := digits_le_16 hNcap
        omega), hNfree, hreg2, fun _ => ⟨N, hN2, rfl, hNfree, hNleast⟩⟩
  · intro reg input hex
    by_cases hmem : baseSlug input ∈ reg
    · obtain ⟨m, _, _, heq, _, _⟩ := slugify_loop_case hmem (hex hmem)
      exact ⟨_, heq⟩
    · exact ⟨_, slugify_of_notMem hmem⟩

/-- Witness for C1 at a concrete input: registry `["cats"]`, label
`cats`. -/
theorem claim_C1_witness :
    slugify ["cats".data] "cats".data = some ("cats-2".data, ["cats-2".data, "cats".data]) ∧
    (2 ≤ ("cats-2".data : Str).length ∧ ("cats-2".data : Str).length ≤ 30 ∧
      ("cats-2".data : Str) ∉ (["cats".data] : Registry) ∧
      (["cats-2".data, "cats".data] : Registry) = "cats-2".data :: ["cats".data] ∧
      (baseSlug "cats".data ∈ (["cats".data] : Registry) →
        ∃ N, 2 ≤ N ∧ ("cats-2".data : Str) = candidate (baseSlug "cats".data) N ∧
          candidate (baseSlug "cats".data) N ∉ (["cats".data] : Registry) ∧
          ∀ k, 2 ≤ k → k < N →
            candidate (baseSlug "cats".data) k ∈ (["cats".data] : Registry))) :=
  ⟨by decide, claim_C1_slug_assign.1 ["cats".data] "cats".data "cats-2".data
    ["cats-2".data, "cats".data] (by decide)⟩

/-! ## Renderer: scan-pass lemmas -/

lemma isPrefixOf_append_self (l1 l2 : Str) : l1.isPrefixOf (l1 ++ l2) = true := by
  induction l1 with
  | nil => simp [List.isPrefixOf]
  | cons a t ih => simpa [List.isPrefixOf] using ih

lemma renderTemplate_succ (f : Nat) (t : Str) (d : JVal) :
    renderTemplate (f + 1) t d =
      (scanBlock eachOpen eachClose (eachRepl (renderTemplate f) d) t).bind (fun o1 =>
      (scanBlock ifOpen ifClose (ifRepl (renderTemplate f) d) o1).bind (fun o2 =>
      (scanBlock unlessOpen unlessClose (unlessRepl (renderTemplate f) d) o2).map (fun o3 =>
        scanPlain d o3))) := by
  simp only [renderTemplate]
  cases scanBlock eachOpen eachClose (eachRepl (renderTemplate f) d) t with
  | none => rfl
  | some o1 =>
    simp only [Option.some_bind]
    cases scanBlock ifOpen ifClose (ifRepl (renderTemplate f) d) o1 with
    | none => rfl
    | some o2 =>
      simp only [Option.some_bind]
      cases scanBlock unlessOpen unlessClose (unlessRepl (renderTemplate f) d) o2 <;> rfl

lemma matchBlock_none_of_head {opnR cls : Str} {s : Str} (h : s.head? ≠ some lb) :
    matchBlock (lb :: opnR) cls s = none := by
  cases s with
  | nil => simp [matchBlock, List.isPrefixOf]
  | cons c w =>
    have hc : c ≠ lb := by
      intro hc
      exact h (by rw [hc]; rfl)
    have : (lb :: opnR).isPrefixOf (c :: w) = false := by
      simp [List.isPrefixOf]
      intro hcl
      exact absurd hcl.symm hc
    simp [matchBlock, this]

lemma matchPlain_none_of_head {s : Str} (h : s.head? ≠ some lb) :
    matchPlain s = none := by
  cases s with
  | nil => simp [matchPlain, List.isPrefixOf]
  | cons c w =>
    have hc : c ≠ lb := by
      intro hc
      exact h (by rw [hc]; rfl)
    have : ([lb, lb] : Str).isPrefixOf (c :: w) = false := by
      simp [List.isPrefixOf]
      intro hcl
      exact absurd hcl.symm hc
    simp [matchPlain, this]

lemma isPrefixOf_length_le {l1 l2 : Str} (h : l1.isPrefixOf l2 = true) :
    l1.length ≤ l2.length := by
  have := List.isPrefixOf_iff_prefix.mp h
  exact this.length_le

lemma matchBlock_rest_lt {opn cls s : Str} {p b rest : Str} (hopn : opn ≠ [])
    (h : matchBlock opn cls s = some (p, b, rest)) : rest.length < s.length := by
  simp only [matchBlock] at h
  by_cases h1 : opn.isPrefixOf s
  · rw [if_pos h1] at h
    by_cases h2 : (s.drop opn.length).takeWhile (fun c => c ≠ rb) = []
    · rw [if_pos h2] at h
      simp at h
    · rw [if_neg h2] at h
      by_cases h3 : ([rb, rb] : Str).isPrefixOf
          ((s.drop opn.length).drop ((s.drop opn.length).takeWhile (fun c => c ≠ rb)).length)
      · rw [if_pos h3] at h
        set t2 := (s.drop opn.length).drop ((s.drop opn.length).takeWhile (fun c => c ≠ rb)).length with ht2
        cases ht3 : t2.drop 2 with
        | nil => rw [ht3] at h; simp at h
        | cons c0 rest0 =>
          rw [ht3] at h
          dsimp only at h
          cases hf : findOcc cls rest0 with
          | none => rw [hf] at h; simp at h
          | some j =>
            rw [hf] at h
            simp only [Option.some_inj] at h
            have hrest : rest = rest0.drop (j + cls.length) := by
              have := congrArg (fun x => x.2.2) h
              simpa using this.symm
            have hlen0 : rest.length ≤ rest0.length := by
              rw [hrest]
              simp
            have hlen1 : (t2.drop 2).length = rest0.length + 1 := by rw [ht3]; simp
            have hlen2 : (t2.drop 2).length ≤ t2.length := by simp
            have hlen3 : t2.length ≤ (s.drop opn.length).length := by
              rw [ht2, List.length_drop]
              omega
            have hlen4 : (s.drop opn.length).length = s.length - opn.length := by simp
            have hop : 1 ≤ opn.length := by
              cases opn with
              | nil => exact absurd rfl hopn
              | cons a t => simp
            have hsl : opn.length ≤ s.length := isPrefixOf_length_le h1
            omega
      · rw [if_neg h3] at h
        simp at h
  · rw [if_neg h1] at h
    simp at h

lemma scanBlockAux_fuel_ge {opn cls : Str} {repl : Str → Str → Option Str} (hopn : opn ≠ []) :
    ∀ (fuel : Nat) (s : Str), s.length ≤ fuel →
      scanBlockAux opn cls repl fuel s = scanBlockAux opn cls repl s.length s := by
  intro fuel
  induction fuel using Nat.strong_induction_on with
  | _ fuel ih =>
    intro s hs
    cases fuel with
    | zero =>
      have : s = [] := List.length_eq_zero.mp (by omega)
      rw [this]
      rfl
    | succ f =>
      cases s with
      | nil => rfl
      | cons c w =>
        have hs' : w.length + 1 ≤ f + 1 := by simpa using hs
        have hl : (c :: w).length = w.length + 1 := rfl
        rw [hl]
        simp only [scanBlockAux]
        cases hm : matchBlock opn cls (c :: w) with
        | none =>
          simp only [hm]
          rw [ih f (by omega) w (by omega)]
        | some pbr =>
          obtain ⟨p, b, rest⟩ := pbr
          simp only [hm]
          have hrest := matchBlock_rest_lt hopn hm
          simp only [List.length_cons] at hrest
          rw [ih f (by omega) rest (by omega), ih w.length (by omega) rest (by omega)]

lemma scanBlock_nil (opn cls : Str) (repl : Str → Str → Option Str) :
    scanBlock opn cls repl [] = some [] := rfl

lemma scanBlock_cons_nomatch {opn cls : Str} {repl : Str → Str → Option Str} {c : Char} {w : Str}
    (hm : matchBlock opn cls (c :: w) = none) :
    scanBlock opn cls repl (c :: w) =
      match scanBlock opn cls repl w with
      | some tl => some (c :: tl)
      | none => none := by
  simp only [scanBlock]
  have hl : (c :: w).length = w.length + 1 := rfl
  rw [hl]
  simp only [scanBlockAux, hm]

lemma scanBlock_match {opn cls : Str} {repl : Str → Str → Option Str} {s p b rest : Str}
    (hopn : opn ≠ []) (hm : matchBlock opn cls s = some (p, b, rest)) :
    scanBlock opn cls repl s =
      match repl p b, scanBlock opn cls repl rest with
      | some r, some tl => some (r ++ tl)
      | _, _ => none := by
  cases s with
  | nil =>
    exfalso
    cases opn with
    | nil => exact hopn rfl
    | cons a t => simp [matchBlock, List.isPrefixOf] at hm
  | cons c w =>
    simp only [scanBlock]
    have hl : (c :: w).length = w.length + 1 := rfl
    rw [hl]
    simp only [scanBlockAux, hm]
    have hrest := matchBlock_rest_lt hopn hm
    simp only [List.length_cons] at hrest
    rw [scanBlockAux_fuel_ge hopn w.length rest (by omega)]

lemma scanBlock_skip {opn cls : Str} {repl : Str → Str → Option Str} {s : Str}
    (h : ∀ t, t <:+ s → matchBlock opn cls t = none) :
    scanBlock opn cls repl s = some s := by
  induction s with
  | nil => rfl
  | cons c w ih =>
    rw [scanBlock_cons_nomatch (h _ (List.suffix_refl _))]
    rw [ih (fun t ht => h t (ht.trans (List.suffix_cons c w)))]

lemma scanBlock_skip_noLb {opn cls : Str} {repl : Str → Str → Option Str} {s : Str}
    (hop : opn.head? = some lb) (h : ∀ c ∈ s, c ≠ lb) :
    scanBlock opn cls repl s = some s := by
  obtain ⟨r, hr⟩ : ∃ r, opn = lb :: r := by
    cases opn with
    | nil => simp at hop
    | cons a u =>
      simp at hop
      exact ⟨u, by rw [hop]⟩
  apply scanBlock_skip
  intro t ht
  rw [hr]
  apply matchBlock_none_of_head
  cases t with
  | nil => simp
  | cons a u =>
    have ha : a ∈ s := ht.sublist.subset (List.mem_cons_self a u)
    simp only [List.head?_cons, ne_eq, Option.some.injEq]
    exact h a ha

lemma matchPlain_rest_lt {s p rest : Str} (hm : matchPlain s = some (p, rest)) :
    rest.length < s.length := by
  simp only [matchPlain] at hm
  by_cases h1 : ([lb, lb] : Str).isPrefixOf s
  · rw [if_pos h1] at hm
    by_cases h2 : (s.drop 2).takeWhile (fun c => c ≠ rb) = []
    · rw [if_pos h2] at hm
      simp at hm
    · rw [if_neg h2] at hm
      by_cases h3 : ([rb, rb] : Str).isPrefixOf
          ((s.drop 2).drop ((s.drop 2).takeWhile (fun c => c ≠ rb)).length)
      · rw [if_pos h3] at hm
        simp only [Option.some_inj] at hm
        have hrest : rest = (s.drop 2).drop
            (((s.drop 2).takeWhile (fun c => c ≠ rb)).length + 2) := by
          have := congrArg (fun x => x.2) hm
          simpa using this.symm
        have hp : p = (s.drop 2).takeWhile (fun c => c ≠ rb) := by
          have := congrArg (fun x => x.1) hm
          simpa using this.symm
        have hpne : ((s.drop 2).takeWhile (fun c => c ≠ rb)).length ≥ 1 := by
          cases hq : (s.drop 2).takeWhile (fun c => c ≠ rb) with
          | nil => exact absurd hq h2
          | cons x y => simp
        have hs2 : 2 ≤ s.length := isPrefixOf_length_le h1
        have : rest.length ≤ (s.drop 2).length -
            (((s.drop 2).takeWhile (fun c => c ≠ rb)).length + 2) := by
          rw [hrest, List.length_drop]
        have hd2 : (s.drop 2).length = s.length - 2 := by simp
        omega
      · rw [if_neg h3] at hm
        simp at hm
  · rw [if_neg h1] at hm
    simp at hm

lemma scanPlainAux_fuel_ge {d : JVal} :
    ∀ (fuel : Nat) (s : Str), s.length ≤ fuel →
      scanPlainAux d fuel s = scanPlainAux d s.length s := by
  intro fuel
  induction fuel using Nat.strong_induction_on with
  | _ fuel ih =>
    intro s hs
    cases fuel with
    | zero =>
      have : s = [] := List.length_eq_zero.mp (by omega)
      rw [this]
      rfl
    | succ f =>
      cases s with
      | nil => rfl
      | cons c w =>
        have hs' : w.length + 1 ≤ f + 1 := by simpa using hs
        have hl : (c :: w).length = w.length + 1 := rfl
        rw [hl]
        simp only [scanPlainAux]
        cases hm : matchPlain (c :: w) with
        | none =>
          simp only [hm]
          rw [ih f (by omega) w (by omega)]
        | some pr =>
          obtain ⟨p, rest⟩ := pr
          simp only [hm]
          have hrest := matchPlain_rest_lt hm
          simp only [List.length_cons] at hrest
          rw [ih f (by omega) rest (by omega), ih w.length (by omega) rest (by omega)]

lemma scanPlain_cons_nomatch {d : JVal} {c : Char} {w : Str}
    (hm : matchPlain (c :: w) = none) :
    scanPlain d (c :: w) = c :: scanPlain d w := by
  simp only [scanPlain]
  have hl : (c :: w).length = w.length + 1 := rfl
  rw [hl]
  simp only [scanPlainAux, hm]

lemma scanPlain_match {d : JVal} {s p rest : Str} (hm : matchPlain s = some (p, rest)) :
    scanPlain d s = jsShow (getNestedValue d p) ++ scanPlain d rest := by
  cases s with
  | nil => simp [matchPlain, List.isPrefixOf] at hm
  | cons c w =>
    simp only [scanPlain]
    have hl : (c :: w).length = w.length + 1 := rfl
    rw [hl]
    simp only [scanPlainAux, hm]
    have hrest := matchPlain_rest_lt hm
    simp only [List.length_cons] at hrest
    rw [scanPlainAux_fuel_ge w.length rest (by omega)]

lemma scanPlain_skip {d : JVal} {s : Str} (h : ∀ t, t <:+ s → matchPlain t = none) :
    scanPlain d s = s := by
  induction s with
  | nil => rfl
  | cons c w ih =>
    rw [scanPlain_cons_nomatch (h _ (List.suffix_refl _))]
    rw [ih (fun t ht => h t (ht.trans (List.suffix_cons c w)))]

lemma scanPlain_skip_noLb {d : JVal} {s : Str} (h : ∀ c ∈ s, c ≠ lb) :
    scanPlain d s = s := by
  apply scanPlain_skip
  intro t ht
  apply matchPlain_none_of_head
  cases t with
  | nil => simp
  | cons a u =>
    have ha : a ∈ s := ht.sublist.subset (List.mem_cons_self a u)
    simp only [List.head?_cons, ne_eq, Option.some.injEq]
    exact h a ha

lemma renderTemplate_noLb {s : Str} (h : ∀ c ∈ s, c ≠ lb) (f : Nat) (d : JVal) :
    renderTemplate (f + 1) s d = some s := by
  rw [renderTemplate_succ]
  rw [scanBlock_skip_noLb (show eachOpen.head? = some lb from rfl) h]
  simp only [Option.some_bind]
  rw [scanBlock_skip_noLb (show ifOpen.head? = some lb from rfl) h]
  simp only [Option.some_bind]
  rw [scanBlock_skip_noLb (show unlessOpen.head? = some lb from rfl) h]
  simp only [Option.map_some']
  rw [scanPlain_skip_noLb h]

lemma renderTemplate_blocksFree {s : Str}
    (he : ∀ t ∈ s.tails, matchBlock eachOpen eachClose t = none)
    (hi : ∀ t ∈ s.tails, matchBlock ifOpen ifClose t = none)
    (hu : ∀ t ∈ s.tails, matchBlock unlessOpen unlessClose t = none)
    (f : Nat) (d : JVal) :
    renderTemplate (f + 1) s d = some (scanPlain d s) := by
  rw [renderTemplate_succ]
  rw [scanBlock_skip (fun t ht => he t ((List.mem_tails t s).mpr ht))]
  simp only [Option.some_bind]
  rw [scanBlock_skip (fun t ht => hi t ((List.mem_tails t s).mpr ht))]
  simp only [Option.some_bind]
  rw [scanBlock_skip (fun t ht => hu t ((List.mem_tails t s).mpr ht))]
  simp only [Option.map_some']

lemma eachRepl_t9 (g : Nat) :
    eachRepl (renderTemplate (g + 1)) d9 "xs".data (ph "v".data) = some p9 := by
  simp only [eachRepl]
  rw [show getNestedValue d9 ("xs".data) = some (vArr [item9]) from by decide]
  simp only
  rw [show ([item9].enum) = [(0, item9)] from rfl]
  simp only [optMapM]
  rw [renderTemplate_blocksFree (by decide) (by decide) (by decide)]
  rw [show scanPlain (eachCtx d9 [item9].length item9 0) (ph "v".data) = p9 from by decide]
  rfl

/-- Claim C9: the claim states that `renderTemplate` terminates on every
template and context because each recursive call is on a strict substring
of its input.  This is false on the code: the conditional passes recurse
on bodies extracted from the already-transformed output, which embeds
data strings.  On the template `{{#each xs}}{{v}}{{/each}}` with context
`{c: 1, xs: [{v: "{{#if c}}{{#each xs}}{{v}}{{/each}}{{/if}}"}]}` the
`#if` pass re-renders the original template against the same context, so
the recursion never terminates: the fuelled model returns `none` (fuel
exhaustion) at every fuel. -/
theorem claim_C9_render_divergence : ∀ f, renderTemplate f t9 d9 = none := by
  intro f
  induction f using Nat.strong_induction_on with
  | _ f ih =>
    match f with
    | 0 => rfl
    | 1 => decide
    | g + 2 =>
      rw [renderTemplate_succ]
      rw [scanBlock_match (by decide)
        (show matchBlock eachOpen eachClose t9 = some ("xs".data, ph "v".data, []) from by decide)]
      rw [eachRepl_t9 g]
      rw [scanBlock_nil]
      simp only [Option.some_bind, List.append_nil]
      rw [scanBlock_match (by decide)
        (show matchBlock ifOpen ifClose p9 = some ("c".data, t9, []) from by decide)]
      have hir : ifRepl (renderTemplate (g + 1)) d9 "c".data t9 = none := by
        simp only [ifRepl]
        rw [show getNestedValue d9 ("c".data) = some (vNum 1) from by decide]
        simp only
        rw [if_pos (by decide)]
        exact ih (g + 1) (by omega)
      rw [hir, scanBlock_nil]
      rfl

/-! ## Tails-free machinery for symbolic templates -/

lemma tailsFree_cons {opn cls : Str} {a : Char} {w : Str}
    (h1 : matchBlock opn cls (a :: w) = none)
    (h2 : ∀ t, t <:+ w → matchBlock opn cls t = none) :
    ∀ t, t <:+ a :: w → matchBlock opn cls t = none := by
  intro t ht
  rcases List.suffix_cons_iff.mp ht with h | h
  · rw [h]
    exact h1
  · exact h2 t h

lemma tailsFree_append_noLb {opn cls : Str} {u v : Str} (hop : opn.head? = some lb)
    (hnl : ∀ c ∈ u, c ≠ lb) (hv : ∀ t, t <:+ v → matchBlock opn cls t = none) :
    ∀ t, t <:+ u ++ v → matchBlock opn cls t = none := by
  induction u with
  | nil =>
    intro t ht
    exact hv t (by simpa using ht)
  | cons a u' ih =>
    intro t ht
    have ha : a ≠ lb := hnl a (List.mem_cons_self a u')
    refine tailsFree_cons ?_ (ih (fun c hc => hnl c (List.mem_cons_of_mem a hc))) t ht
    obtain ⟨r, hr⟩ : ∃ r, opn = lb :: r := by
      cases opn with
      | nil => simp at hop
      | cons x y =>
        simp at hop
        exact ⟨y, by rw [hop]⟩
    rw [hr]
    apply matchBlock_none_of_head
    simp only [List.head?_cons, ne_eq, Option.some.injEq]
    exact ha

lemma tailsFree_of_tails {opn cls : Str} {v : Str}
    (h : ∀ t ∈ v.tails, matchBlock opn cls t = none) :
    ∀ t, t <:+ v → matchBlock opn cls t = none :=
  fun t ht => h t ((List.mem_tails t v).mpr ht)

lemma scanPlain_append_noLb {d : JVal} {u v : Str} (hnl : ∀ c ∈ u, c ≠ lb) :
    scanPlain d (u ++ v) = u ++ scanPlain d v := by
  induction u with
  | nil => simp
  | cons a u' ih =>
    have ha : a ≠ lb := hnl a (List.mem_cons_self a u')
    have hm : matchPlain (a :: (u' ++ v)) = none := by
      apply matchPlain_none_of_head
      simp only [List.head?_cons, ne_eq, Option.some.injEq]
      exact ha
    rw [List.cons_append, scanPlain_cons_nomatch hm,
      ih (fun c hc => hnl c (List.mem_cons_of_mem a hc))]
    rfl

lemma takeWhile_append_all {q : Char → Bool} {p z : Str} (hp : ∀ c ∈ p, q c = true)
    {b : Char} (hb : q b = false) :
    (p ++ b :: z).takeWhile q = p := by
  induction p with
  | nil => simp [List.takeWhile, hb]
  | cons a p' ih =>
    have ha : q a = true := hp a (List.mem_cons_self a p')
    rw [List.cons_append, List.takeWhile_cons_of_pos ha,
      ih (fun c hc => hp c (List.mem_cons_of_mem a hc))]

lemma drop_append_len {p z : Str} {n : Nat} (h : n = p.length) : (p ++ z).drop n = z := by
  rw [h]
  exact List.drop_left p z

lemma matchPlain_ph {p post : Str} (hp : p ≠ []) (hrb : ∀ c ∈ p, c ≠ rb) :
    matchPlain ([lb, lb] ++ (p ++ ([rb, rb] ++ post))) = some (p, post) := by
  have h1 : ([lb, lb] : Str).isPrefixOf ([lb, lb] ++ (p ++ ([rb, rb] ++ post))) = true :=
    isPrefixOf_append_self _ _
  have htw : (p ++ ([rb, rb] ++ post)).takeWhile (fun c => c ≠ rb) = p := by
    have : p ++ ([rb, rb] ++ post) = p ++ rb :: (rb :: post) := by simp
    rw [this]
    exact takeWhile_append_all (fun c hc => by simpa using hrb c hc) (by simp)
  simp only [matchPlain, h1, if_pos]
  rw [show ([lb, lb] ++ (p ++ ([rb, rb] ++ post))).drop 2 = p ++ ([rb, rb] ++ post) from rfl]
  rw [htw]
  rw [if_neg hp]
  rw [drop_append_len rfl]
  rw [show (([rb, rb] : Str) ++ post) = rb :: rb :: post from rfl]
  simp only [List.isPrefixOf, List.cons_append]
  rw [if_pos (by simp)]
  congr 1
  rw [show p.length + 2 = (p ++ [rb, rb]).length from by simp]
  rw [show p ++ rb :: rb :: post = (p ++ [rb, rb]) ++ post from by simp]
  rw [List.drop_left]

lemma matchBlock_none_of_not_prefixOf {opn cls s : Str} (h : opn.isPrefixOf s = false) :
    matchBlock opn cls s = none := by
  simp [matchBlock, h]

lemma not_isPrefixOf_of_take {l s : Str} {n : Nat} (hn : n ≤ l.length)
    (h : l.take n ≠ s.take n) : l.isPrefixOf s = false := by
  by_contra hb
  have hb' : l.isPrefixOf s = true := by
    revert hb
    cases l.isPrefixOf s <;> simp
  obtain ⟨t, rfl⟩ := List.isPrefixOf_iff_prefix.mp hb'
  exact h (by rw [List.take_append_of_le_length hn])

lemma matchBlock_nil_none {opn cls : Str} (hopn : opn ≠ []) :
    matchBlock opn cls [] = none := by
  cases opn with
  | nil => exact absurd rfl hopn
  | cons a t => simp [matchBlock, List.isPrefixOf]

lemma tailsFree_noLb {opn cls u : Str} (hop : opn.head? = some lb)
    (hnl : ∀ c ∈ u, c ≠ lb) : ∀ t, t <:+ u → matchBlock opn cls t = none := by
  obtain ⟨r, hr⟩ : ∃ r, opn = lb :: r := by
    cases opn with
    | nil => simp at hop
    | cons x y =>
      simp at hop
      exact ⟨y, by rw [hop]⟩
  intro t ht
  rw [hr]
  apply matchBlock_none_of_head
  cases t with
  | nil => simp
  | cons a w =>
    have ha : a ∈ u := ht.sublist.subset (List.mem_cons_self a w)
    simp only [List.head?_cons, ne_eq, Option.some.injEq]
    exact hnl a ha

lemma matchBlock_tmpl {opn cls p body : Str} (hp : p ≠ []) (hrb : ∀ c ∈ p, c ≠ rb)
    {c0 : Char} {bt : Str} (hbody : body = c0 :: bt)
    (hfind : findOcc cls (bt ++ cls) = some bt.length) :
    matchBlock opn cls (opn ++ (p ++ ([rb, rb] ++ (body ++ cls)))) = some (p, body, []) := by
  have h1 : opn.isPrefixOf (opn ++ (p ++ ([rb, rb] ++ (body ++ cls)))) = true :=
    isPrefixOf_append_self _ _
  have htw : (p ++ ([rb, rb] ++ (body ++ cls))).takeWhile (fun c => c ≠ rb) = p := by
    have he : p ++ ([rb, rb] ++ (body ++ cls)) = p ++ rb :: (rb :: (body ++ cls)) := by simp
    rw [he]
    exact takeWhile_append_all (fun c hc => by simpa using hrb c hc) (by simp)
  simp only [matchBlock, h1, if_pos]
  rw [List.drop_left]
  rw [htw]
  rw [if_neg hp]
  rw [drop_append_len rfl]
  rw [show (([rb, rb] : Str) ++ (body ++ cls)) = rb :: rb :: (body ++ cls) from rfl]
  rw [show (([rb, rb] : Str).isPrefixOf (rb :: rb :: (body ++ cls))) = true from by
    simp [List.isPrefixOf]]
  rw [if_pos rfl]
  rw [show (rb :: rb :: (body ++ cls)).drop 2 = body ++ cls from rfl]
  rw [hbody]
  rw [show (c0 :: bt) ++ cls = c0 :: (bt ++ cls) from rfl]
  simp only [hfind]
  rw [List.take_left]
  rw [show bt.length + cls.length = (bt ++ cls).length from by simp]
  rw [List.drop_length]

lemma tailsFree_dblBrace {opn2 cls2 : Str} {z : Str}
    (h2 : opn2.take 2 = [lb, lb])
    (hfail0 : matchBlock opn2 cls2 (lb :: lb :: z) = none)
    (hz : ∀ t, t <:+ z → matchBlock opn2 cls2 t = none)
    (hznl : z.head? ≠ some lb) :
    ∀ t, t <:+ lb :: lb :: z → matchBlock opn2 cls2 t = none := by
  apply tailsFree_cons hfail0
  apply tailsFree_cons ?_ hz
  apply matchBlock_none_of_not_prefixOf
  apply not_isPrefixOf_of_take (n := 2)
  · have := congrArg List.length h2
    simp at this
    omega
  · rw [h2]
    cases z with
    | nil => simp
    | cons c z' =>
      have hc : c ≠ lb := by
        intro hc
        exact hznl (by rw [hc]; rfl)
      intro hcon
      simp only [List.take_succ_cons, List.take_zero, List.cons.injEq, and_true] at hcon
      exact hc hcon.2.symm

lemma tailsFree_rbrb {opn2 cls2 : Str} {post : Str}
    (hop : opn2.head? = some lb) (hnl : ∀ c ∈ post, c ≠ lb) :
    ∀ t, t <:+ rb :: rb :: post → matchBlock opn2 cls2 t = none := by
  obtain ⟨r, hr⟩ : ∃ r, opn2 = lb :: r := by
    cases opn2 with
    | nil => simp at hop
    | cons x y =>
      simp at hop
      exact ⟨y, by rw [hop]⟩
  apply tailsFree_cons (by
    rw [hr]
    apply matchBlock_none_of_head
    intro h
    simp only [List.head?_cons, Option.some.injEq] at h
    exact absurd h (by decide))
  apply tailsFree_cons (by
    rw [hr]
    apply matchBlock_none_of_head
    intro h
    simp only [List.head?_cons, Option.some.injEq] at h
    exact absurd h (by decide))
  exact tailsFree_noLb hop hnl

lemma head_of_take3 {opn2 : Str} (hop3 : opn2.take 3 = [lb, lb, '#']) :
    opn2.head? = some lb := by
  cases opn2 with
  | nil => simp at hop3
  | cons a r =>
    simp only [List.take_succ_cons, List.cons.injEq] at hop3
    rw [hop3.1]
    rfl

lemma take2_of_take3 {opn2 : Str} (hop3 : opn2.take 3 = [lb, lb, '#']) :
    opn2.take 2 = [lb, lb] := by
  have : opn2.take 2 = (opn2.take 3).take 2 := by
    rw [List.take_take]
    norm_num
  rw [this, hop3]
  rfl

lemma tailsFree_subTmpl {opn2 cls2 : Str} {pre p post : Str}
    (hop3 : opn2.take 3 = [lb, lb, '#'])
    (hpre : ∀ c ∈ pre, c ≠ lb) (hp : p ≠ []) (hnlp : ∀ c ∈ p, c ≠ lb)
    (hh : p.head? ≠ some '#') (hpost : ∀ c ∈ post, c ≠ lb) :
    ∀ t, t <:+ pre ++ ([lb, lb] ++ (p ++ ([rb, rb] ++ post))) →
      matchBlock opn2 cls2 t = none := by
  have hophead : opn2.head? = some lb := head_of_take3 hop3
  have hop2 : opn2.take 2 = [lb, lb] := take2_of_take3 hop3
  obtain ⟨c, p', rfl⟩ : ∃ c p', p = c :: p' := by
    cases p with
    | nil => exact absurd rfl hp
    | cons c p' => exact ⟨c, p', rfl⟩
  have hc_lb : c ≠ lb := hnlp c (List.mem_cons_self c p')
  have hc_hash : c ≠ '#' := by
    intro hc
    exact hh (by rw [hc]; rfl)
  apply tailsFree_append_noLb hophead hpre
  show ∀ t, t <:+ lb :: lb :: ((c :: p') ++ ([rb, rb] ++ post)) → matchBlock opn2 cls2 t = none
  apply tailsFree_dblBrace hop2
  · apply matchBlock_none_of_not_prefixOf
    apply not_isPrefixOf_of_take (n := 3)
    · have := congrArg List.length hop3
      simp at this
      omega
    · rw [hop3]
      intro hcon
      simp only [List.cons_append, List.take_succ_cons, List.take_zero, List.cons.injEq,
        and_true] at hcon
      exact hc_hash hcon.2.2.symm
  · apply tailsFree_append_noLb hophead hnlp
    show ∀ t, t <:+ rb :: rb :: post → matchBlock opn2 cls2 t = none
    exact tailsFree_rbrb hophead hpost
  · simp only [List.cons_append, List.head?_cons, ne_eq, Option.some.injEq]
    exact hc_lb

lemma renderTemplate_sub {d : JVal} {pre p post : Str}
    (hpre : ∀ c ∈ pre, c ≠ lb) (hp : p ≠ [])
    (hnlp : ∀ c ∈ p, c ≠ lb) (hrb : ∀ c ∈ p, c ≠ rb) (hh : p.head? ≠ some '#')
    (hpost : ∀ c ∈ post, c ≠ lb) (f : Nat) :
    renderTemplate (f + 1) (pre ++ ([lb, lb] ++ (p ++ ([rb, rb] ++ post)))) d =
      some (pre ++ (jsShow (getNestedValue d p) ++ post)) := by
  rw [renderTemplate_succ]
  rw [scanBlock_skip (tailsFree_subTmpl (by decide) hpre hp hnlp hh hpost)]
  simp only [Option.some_bind]
  rw [scanBlock_skip (tailsFree_subTmpl (by decide) hpre hp hnlp hh hpost)]
  simp only [Option.some_bind]
  rw [scanBlock_skip (tailsFree_subTmpl (by decide) hpre hp hnlp hh hpost)]
  simp only [Option.map_some']
  rw [scanPlain_append_noLb hpre]
  rw [scanPlain_match (matchPlain_ph hp hrb)]
  rw [scanPlain_skip_noLb hpost]

lemma head_of_take2 {opn2 : Str} (hop2 : opn2.take 2 = [lb, lb]) :
    opn2.head? = some lb := by
  cases opn2 with
  | nil => simp at hop2
  | cons a r =>
    simp only [List.take_succ_cons, List.cons.injEq] at hop2
    rw [hop2.1]
    rfl

lemma tailsFree_ifTmpl {opn2 cls2 : Str} {p body : Str}
    (hop2 : opn2.take 2 = [lb, lb])
    (hlen4 : 4 ≤ opn2.length) (h4 : opn2.take 4 ≠ [lb, lb, '#', 'i'])
    (hnlp : ∀ c ∈ p, c ≠ lb)
    (hv : ∀ t, t <:+ [rb, rb] ++ (body ++ ifClose) → matchBlock opn2 cls2 t = none) :
    ∀ t, t <:+ ifTmpl p body → matchBlock opn2 cls2 t = none := by
  have hophead : opn2.head? = some lb := head_of_take2 hop2
  show ∀ t, t <:+ lb :: lb ::
      ('#' :: 'i' :: 'f' :: ' ' :: (p ++ ([rb, rb] ++ (body ++ ifClose)))) →
      matchBlock opn2 cls2 t = none
  apply tailsFree_dblBrace hop2
  · apply matchBlock_none_of_not_prefixOf
    apply not_isPrefixOf_of_take (n := 4) (by omega)
    intro hcon
    exact h4 (by rw [hcon]; rfl)
  · show ∀ t, t <:+ ['#', 'i', 'f', ' '] ++ (p ++ ([rb, rb] ++ (body ++ ifClose))) →
        matchBlock opn2 cls2 t = none
    apply tailsFree_append_noLb hophead (by decide)
    exact tailsFree_append_noLb hophead hnlp hv
  · simp only [List.head?_cons, ne_eq, Option.some.injEq]
    decide

lemma tailsFree_unlessTmpl {opn2 cls2 : Str} {p body : Str}
    (hop2 : opn2.take 2 = [lb, lb])
    (hlen4 : 4 ≤ opn2.length) (h4 : opn2.take 4 ≠ [lb, lb, '#', 'u'])
    (hnlp : ∀ c ∈ p, c ≠ lb)
    (hv : ∀ t, t <:+ [rb, rb] ++ (body ++ unlessClose) → matchBlock opn2 cls2 t = none) :
    ∀ t, t <:+ unlessTmpl p body → matchBlock opn2 cls2 t = none := by
  have hophead : opn2.head? = some lb := head_of_take2 hop2
  show ∀ t, t <:+ lb :: lb ::
      ('#' :: 'u' :: 'n' :: 'l' :: 'e' :: 's' :: 's' :: ' ' ::
        (p ++ ([rb, rb] ++ (body ++ unlessClose)))) →
      matchBlock opn2 cls2 t = none
  apply tailsFree_dblBrace hop2
  · apply matchBlock_none_of_not_prefixOf
    apply not_isPrefixOf_of_take (n := 4) (by omega)
    intro hcon
    exact h4 (by rw [hcon]; rfl)
  · show ∀ t, t <:+ ['#', 'u', 'n', 'l', 'e', 's', 's', ' '] ++
        (p ++ ([rb, rb] ++ (body ++ unlessClose))) → matchBlock opn2 cls2 t = none
    apply tailsFree_append_noLb hophead (by decide)
    exact tailsFree_append_noLb hophead hnlp hv
  · simp only [List.head?_cons, ne_eq, Option.some.injEq]
    decide

lemma ifRepl_eval {rend : Str → JVal → Option Str} {d : JVal} {p body : Str}
    (hrend : rend body d = some body) :
    ifRepl rend d p body = some (match getNestedValue d p with
      | some (vArr xs) => if 0 < xs.length then body else []
      | o => if jsTruthyOpt o then body else []) := by
  simp only [ifRepl]
  cases hv : getNestedValue d p with
  | none => simp [jsTruthyOpt]
  | some v =>
    cases v with
    | vArr xs =>
      by_cases hxs : 0 < xs.length
      · simp [hxs, hrend]
      · simp [hxs]
    | vNull => simp [jsTruthyOpt, jsTruthy]
    | vBool b => cases b <;> simp [jsTruthyOpt, jsTruthy, hrend]
    | vNum n =>
      by_cases hn : n = 0
      · simp [jsTruthyOpt, jsTruthy, hn]
      · simp [jsTruthyOpt, jsTruthy, hn, hrend]
    | vStr s =>
      by_cases hs : s = []
      · simp [jsTruthyOpt, jsTruthy, hs]
      · simp [jsTruthyOpt, jsTruthy, hs, hrend]
    | vObj fs => simp [jsTruthyOpt, jsTruthy, hrend]

lemma unlessRepl_eval {rend : Str → JVal → Option Str} {d : JVal} {p body : Str}
    (hrend : rend body d = some body) :
    unlessRepl rend d p body =
      some (if jsTruthyOpt (getNestedValue d p) then [] else body) := by
  simp only [unlessRepl]
  by_cases hv : jsTruthyOpt (getNestedValue d p) = true
  · simp [hv]
  · simp only [Bool.not_eq_true] at hv
    simp [hv, hrend]

lemma renderTemplate_ifTmpl {d : JVal} {p : Str} (hp : p ≠ [])
    (hnlp : ∀ c ∈ p, c ≠ lb) (hrb : ∀ c ∈ p, c ≠ rb) (f : Nat) :
    renderTemplate (f + 2) (ifTmpl p ("yes".data)) d =
      some (match getNestedValue d p with
            | some (vArr xs) => if 0 < xs.length then "yes".data else []
            | o => if jsTruthyOpt o then "yes".data else []) := by
  rw [show f + 2 = (f + 1) + 1 from rfl, renderTemplate_succ]
  rw [scanBlock_skip
    (tailsFree_ifTmpl (by decide) (by decide) (by decide) hnlp (tailsFree_of_tails (by decide)))]
  simp only [Option.some_bind]
  rw [show (ifTmpl p ("yes".data)) =
    ifOpen ++ (p ++ ([rb, rb] ++ ("yes".data ++ ifClose))) from rfl]
  rw [scanBlock_match (by decide)
    (matchBlock_tmpl hp hrb (show "yes".data = 'y' :: "es".data from rfl) (by decide))]
  rw [ifRepl_eval (renderTemplate_noLb (by decide) f d)]
  rw [scanBlock_nil]
  set X := (match getNestedValue d p with
            | some (vArr xs) => if 0 < xs.length then "yes".data else []
            | o => if jsTruthyOpt o then "yes".data else []) with hX
  have hXcases : X = "yes".data ∨ X = [] := by
    rw [hX]
    split
    · split <;> simp
    · split <;> simp
  have hXnl : ∀ c ∈ X, c ≠ lb := by
    intro c hc
    rcases hXcases with h | h <;> rw [h] at hc
    · rcases (by simpa using hc : c = 'y' ∨ c = 'e' ∨ c = 's') with rfl | rfl | rfl <;> decide
    · simp at hc
  simp only [Option.some_bind, List.append_nil]
  rw [scanBlock_skip_noLb (show unlessOpen.head? = some lb from rfl) hXnl]
  simp only [Option.map_some']
  rw [scanPlain_skip_noLb hXnl]

lemma renderTemplate_unlessTmpl {d : JVal} {p : Str} (hp : p ≠ [])
    (hnlp : ∀ c ∈ p, c ≠ lb) (hrb : ∀ c ∈ p, c ≠ rb) (f : Nat) :
    renderTemplate (f + 2) (unlessTmpl p ("no".data)) d =
      some (if jsTruthyOpt (getNestedValue d p) then [] else "no".data) := by
  rw [show f + 2 = (f + 1) + 1 from rfl, renderTemplate_succ]
  rw [scanBlock_skip
    (tailsFree_unlessTmpl (by decide) (by decide) (by decide) hnlp
      (tailsFree_of_tails (by decide)))]
  simp only [Option.some_bind]
  rw [scanBlock_skip
    (tailsFree_unlessTmpl (by decide) (by decide) (by decide) hnlp
      (tailsFree_of_tails (by decide)))]
  simp only [Option.some_bind]
  rw [show (unlessTmpl p ("no".data)) =
    unlessOpen ++ (p ++ ([rb, rb] ++ ("no".data ++ unlessClose))) from rfl]
  rw [scanBlock_match (by decide)
    (matchBlock_tmpl hp hrb (show "no".data = 'n' :: "o".data from rfl) (by decide))]
  rw [unlessRepl_eval (renderTemplate_noLb (by decide) f d)]
  rw [scanBlock_nil]
  set X := (if jsTruthyOpt (getNestedValue d p) then ([] : Str) else "no".data) with hX
  have hXnl : ∀ c ∈ X, c ≠ lb := by
    rw [hX]
    split
    · simp
    · decide
  simp only [Option.some_bind, Option.map_some', List.append_nil]
  rw [scanPlain_skip_noLb hXnl]

/-! ## Fuel monotonicity of the renderer -/

lemma optMapM_congr {α β : Type} {f g : α → Option β}
    (h : ∀ a y, f a = some y → g a = some y) :
    ∀ l r, optMapM f l = some r → optMapM g l = some r := by
  intro l
  induction l with
  | nil => intro r hr; simpa [optMapM] using hr
  | cons a tl ih =>
    intro r hr
    simp only [optMapM] at hr ⊢
    cases hfa : f a with
    | none => rw [hfa] at hr; simp at hr
    | some b =>
      rw [hfa] at hr
      cases hrest : optMapM f tl with
      | none => rw [hrest] at hr; simp at hr
      | some rs =>
        rw [hrest] at hr
        rw [h a b hfa, ih rs hrest]
        exact hr

lemma scanBlockAux_congr {opn cls : Str} {r1 r2 : Str → Str → Option Str}
    (h : ∀ p b x, r1 p b = some x → r2 p b = some x) :
    ∀ fuel s o, scanBlockAux opn cls r1 fuel s = some o →
      scanBlockAux opn cls r2 fuel s = some o := by
  intro fuel
  induction fuel with
  | zero =>
    intro s o ho
    cases s <;> exact ho
  | succ fuel ih =>
    intro s o ho
    cases s with
    | nil => exact ho
    | cons c w =>
      simp only [scanBlockAux] at ho ⊢
      cases hm : matchBlock opn cls (c :: w) with
      | none =>
        rw [hm] at ho
        dsimp only at ho ⊢
        cases hw : scanBlockAux opn cls r1 fuel w with
        | none => rw [hw] at ho; simp at ho
        | some tl =>
          rw [hw] at ho
          rw [ih w tl hw]
          exact ho
      | some pbr =>
        obtain ⟨p, b, rest⟩ := pbr
        rw [hm] at ho
        dsimp only at ho ⊢
        cases hr : r1 p b with
        | none => rw [hr] at ho; simp at ho
        | some r =>
          rw [hr] at ho
          cases hrest : scanBlockAux opn cls r1 fuel rest with
          | none => rw [hrest] at ho; simp at ho
          | some tl =>
            rw [hrest] at ho
            rw [h p b r hr, ih rest tl hrest]
            exact ho

lemma scanBlock_congr {opn cls : Str} {r1 r2 : Str → Str → Option Str}
    (h : ∀ p b x, r1 p b = some x → r2 p b = some x) {s o : Str}
    (ho : scanBlock opn cls r1 s = some o) : scanBlock opn cls r2 s = some o :=
  scanBlockAux_congr h s.length s o ho

lemma eachRepl_congr {rend1 rend2 : Str → JVal → Option Str}
    (h : ∀ b c y, rend1 b c = some y → rend2 b c = some y) {d : JVal} {p b : Str} {x : Str}
    (hx : eachRepl rend1 d p b = some x) : eachRepl rend2 d p b = some x := by
  simp only [eachRepl] at hx ⊢
  cases hv : getNestedValue d p with
  | none => rw [hv] at hx; exact hx
  | some v =>
    rw [hv] at hx
    cases v with
    | vArr xs =>
      dsimp only at hx ⊢
      cases hmm : optMapM (fun pr => rend1 b (eachCtx d xs.length pr.2 pr.1)) xs.enum with
      | none => rw [hmm] at hx; simp at hx
      | some pieces =>
        rw [hmm] at hx
        rw [optMapM_congr (fun a y hy => h _ _ y hy) xs.enum pieces hmm]
        exact hx
    | vNull => exact hx
    | vBool bb => exact hx
    | vNum n => exact hx
    | vStr s => exact hx
    | vObj fs => exact hx

lemma ifRepl_congr {rend1 rend2 : Str → JVal → Option Str}
    (h : ∀ b c y, rend1 b c = some y → rend2 b c = some y) {d : JVal} {p b : Str} {x : Str}
    (hx : ifRepl rend1 d p b = some x) : ifRepl rend2 d p b = some x := by
  simp only [ifRepl] at hx ⊢
  cases hv : getNestedValue d p with
  | none =>
    rw [hv] at hx
    simp only [jsTruthyOpt] at hx ⊢
    exact hx
  | some v =>
    rw [hv] at hx
    cases v with
    | vArr xs =>
      dsimp only at hx ⊢
      by_cases hxs : 0 < xs.length
      · rw [if_pos hxs] at hx ⊢
        exact h _ _ _ hx
      · rw [if_neg hxs] at hx ⊢
        exact hx
    | vNull => exact hx
    | vBool bb =>
      dsimp only at hx ⊢
      by_cases ht : jsTruthyOpt (some (vBool bb)) = true
      · rw [if_pos ht] at hx ⊢
        exact h _ _ _ hx
      · rw [if_neg (by simp [ht])] at hx ⊢
        exact hx
    | vNum n =>
      dsimp only at hx ⊢
      by_cases ht : jsTruthyOpt (some (vNum n)) = true
      · rw [if_pos ht] at hx ⊢
        exact h _ _ _ hx
      · rw [if_neg (by simp [ht])] at hx ⊢
        exact hx
    | vStr s =>
      dsimp only at hx ⊢
      by_cases ht : jsTruthyOpt (some (vStr s)) = true
      · rw [if_pos ht] at hx ⊢
        exact h _ _ _ hx
      · rw [if_neg (by simp [ht])] at hx ⊢
        exact hx
    | vObj fs =>
      dsimp only at hx ⊢
      by_cases ht : jsTruthyOpt (some (vObj fs)) = true
      · rw [if_pos ht] at hx ⊢
        exact h _ _ _ hx
      · rw [if_neg (by simp [ht])] at hx ⊢
        exact hx

lemma unlessRepl_congr {rend1 rend2 : Str → JVal → Option Str}
    (h : ∀ b c y, rend1 b c = some y → rend2 b c = some y) {d : JVal} {p b : Str} {x : Str}
    (hx : unlessRepl rend1 d p b = some x) : unlessRepl rend2 d p b = some x := by
  simp only [unlessRepl] at hx ⊢
  by_cases ht : jsTruthyOpt (getNestedValue d p) = true
  · rw [if_pos ht] at hx ⊢
    exact hx
  · rw [if_neg ht] at hx ⊢
    exact h _ _ _ hx

lemma renderTemplate_mono :
    ∀ f g, f ≤ g → ∀ t d x, renderTemplate f t d = some x → renderTemplate g t d = some x := by
  intro f
  induction f with
  | zero =>
    intro g _ t d x h
    exact absurd h (by simp [renderTemplate])
  | succ f ih =>
    intro g hg t d x h
    obtain ⟨g', rfl⟩ : ∃ g', g = g' + 1 := ⟨g - 1, by omega⟩
    have hcb : ∀ b c y, renderTemplate f b c = some y → renderTemplate g' b c = some y :=
      fun b c y hy => ih g' (by omega) b c y hy
    rw [renderTemplate_succ] at h ⊢
    cases h1 : scanBlock eachOpen eachClose (eachRepl (renderTemplate f) d) t with
    | none => rw [h1] at h; simp at h
    | some o1 =>
      rw [h1] at h
      rw [scanBlock_congr (fun p b x hx => eachRepl_congr hcb hx) h1]
      simp only [Option.some_bind] at h ⊢
      cases h2 : scanBlock ifOpen ifClose (ifRepl (renderTemplate f) d) o1 with
      | none => rw [h2] at h; simp at h
      | some o2 =>
        rw [h2] at h
        rw [scanBlock_congr (fun p b x hx => ifRepl_congr hcb hx) h2]
        simp only [Option.some_bind] at h ⊢
        cases h3 : scanBlock unlessOpen unlessClose (unlessRepl (renderTemplate f) d) o2 with
        | none => rw [h3] at h; simp at h
        | some o3 =>
          rw [h3] at h
          rw [scanBlock_congr (fun p b x hx => unlessRepl_congr hcb hx) h3]
          exact h

/-! ## Pagination lemmas (claims C3 and C7) -/

lemma pageIterations_pos {n : Nat} {ipp : Int} (h : 1 ≤ ipp) :
    pageIterations n ipp = some ((n + ipp.toNat - 1) / ipp.toNat) := by
  simp only [pageIterations]
  rw [if_pos (by omega : (0 : Int) < ipp)]

lemma listPlan_pos {α : Type} (items : List α) {ipp : Int} (h : 1 ≤ ipp) :
    listPlan items ipp =
      some ((List.range ((items.length + ipp.toNat - 1) / ipp.toNat)).map
        (fun k => jsSlice items (k * ipp.toNat) ((k + 1) * ipp.toNat))) := by
  simp only [listPlan, pageIterations_pos h]

lemma listPlan_neg {α : Type} (items : List α) {ipp : Int} (h : ipp < 0) :
    listPlan items ipp = some [] := by
  have h1 : pageIterations items.length ipp = some 0 := by
    simp only [pageIterations]
    rw [if_neg (by omega), if_pos h]
  simp only [listPlan, h1, List.range_zero, List.map_nil]

lemma listPlan_zero_ne_nil {α : Type} (items : List α) (h : items ≠ []) :
    listPlan items 0 = none := by
  have hn : items.length ≠ 0 := fun hc => h (List.length_eq_zero.mp hc)
  have h1 : pageIterations items.length 0 = none := by
    simp only [pageIterations]
    rw [if_neg (by omega), if_neg (by omega), if_neg hn]
  simp only [listPlan, h1]

/-- Claim C3: for `itemsPerPage ≥ 1` the planner emits
`ceil(itemCount / itemsPerPage)` pages whose page number `k + 1` holds the
slice `items[k*ipp : (k+1)*ipp]` (so an empty item list yields no page);
25 items at 10 per page give 3 pages of sizes 10, 10, 5, and an empty
list gives 0 pages. -/
theorem claim_C3_pagination :
    (∀ (items : List JVal) (ipp : Int), 1 ≤ ipp →
      listPlan items ipp =
        some ((List.range ((items.length + ipp.toNat - 1) / ipp.toNat)).map
          (fun k => jsSlice items (k * ipp.toNat) ((k + 1) * ipp.toNat))))
    ∧ (∀ ipp : Int, 1 ≤ ipp → listPlan ([] : List JVal) ipp = some [])
    ∧ (listPlan (List.range 25) (10 : Int)).map (List.map List.length) = some [10, 10, 5]
    ∧ listPlan ([] : List Nat) (10 : Int) = some [] := by
  refine ⟨fun items ipp h => listPlan_pos items h, ?_, by decide, by decide⟩
  intro ipp h
  rw [listPlan_pos ([] : List JVal) h]
  have h1 : 1 ≤ ipp.toNat := by omega
  have h2 : (List.length ([] : List JVal) + ipp.toNat - 1) / ipp.toNat = 0 := by
    rw [List.length_nil]
    exact Nat.div_eq_of_lt (by omega)
  rw [h2, List.range_zero, List.map_nil]

/-- Witness for claim C3: two items, one per page. -/
theorem claim_C3_witness :
    (1 : Int) ≤ 1 ∧
    listPlan [vNum 1, vNum 2] (1 : Int) =
      some ((List.range ((([vNum 1, vNum 2] : List JVal).length + (1 : Int).toNat - 1) /
          (1 : Int).toNat)).map
        (fun k => jsSlice [vNum 1, vNum 2] (k * (1 : Int).toNat) ((k + 1) * (1 : Int).toNat))) :=
  ⟨by decide, claim_C3_pagination.1 [vNum 1, vNum 2] 1 (by decide)⟩

/-- Claim C7 (corrected): `itemsPerPage < 0` yields zero pages (the page
loop never runs), `itemsPerPage = 0` diverges on a non-empty list and
yields zero pages on an empty one; the single unpaginated page happens
only when the pagination config is absent. -/
theorem claim_C7_ipp_nonpositive :
    (∀ (items : List JVal) (ipp : Int), ipp < 0 → listPlan items ipp = some [])
    ∧ (∀ items : List JVal, items ≠ [] → listPlan items 0 = none)
    ∧ listPlan ([] : List JVal) 0 = some []
    ∧ (∀ items : List JVal, listingPlan none items = some [items]) :=
  ⟨fun items ipp h => listPlan_neg items h,
   fun items h => listPlan_zero_ne_nil items h,
   by decide,
   fun items => rfl⟩

/-- Witness for claim C7: a one-item list with `itemsPerPage = -1` and
`itemsPerPage = 0`. -/
theorem claim_C7_witness :
    (-1 : Int) < 0 ∧ listPlan [vNum 1] (-1 : Int) = some [] ∧
    ([vNum 1] : List JVal) ≠ [] ∧ listPlan [vNum 1] (0 : Int) = none :=
  ⟨by decide, claim_C7_ipp_nonpositive.1 [vNum 1] (-1) (by decide), by decide,
   claim_C7_ipp_nonpositive.2.1 [vNum 1] (by decide)⟩

/-- Counterexample to claim C7 as stated: with one item and
`itemsPerPage = -1` the planner emits no page at all, not one page holding
the whole list; with `itemsPerPage = 0` it diverges. -/
theorem claim_C7_counterexample :
    listPlan [vNum 1] (-1 : Int) = some [] ∧
    some ([] : List (List JVal)) ≠ some [[vNum 1]] ∧
    listPlan [vNum 1] (0 : Int) = none := by
  exact ⟨by decide, by decide, by decide⟩

/-! ## Claims C2 and C4: substitution and conditionals -/

/-- Claim C2 (corrected): `\x7b\x7bp\x7d\x7d` substitutes the textual form
of the resolved value when that value is truthy, and empty text when the
path is unresolved or the resolved value is falsy (`value || ''` in the
source); the failure affects only that expression, with the surrounding
text rendered intact.  The spec's own loop example therefore renders to
"a-;b-1;" (index 0 is falsy), not "a-0;b-1;". -/
theorem claim_C2_plain_subst :
    (∀ (d : JVal) (pre p post : Str) (f : Nat),
      (∀ c ∈ pre, c ≠ lb) → p ≠ [] → (∀ c ∈ p, c ≠ lb) → (∀ c ∈ p, c ≠ rb) →
      p.head? ≠ some '#' → (∀ c ∈ post, c ≠ lb) →
      renderTemplate (f + 1) (pre ++ ([lb, lb] ++ (p ++ ([rb, rb] ++ post)))) d =
        some (pre ++ (jsShow (getNestedValue d p) ++ post)))
    ∧ jsShow none = []
    ∧ (∀ v, jsTruthy v = false → jsShow (some v) = [])
    ∧ (∀ v, jsTruthy v = true → jsShow (some v) = jsString v)
    ∧ (∀ f, 2 ≤ f → renderTemplate f exT exD = some ("a-;b-1;".data)) := by
  refine ⟨?_, rfl, ?_, ?_, ?_⟩
  · intro d pre p post f hpre hp hnlp hrb hh hpost
    exact renderTemplate_sub hpre hp hnlp hrb hh hpost f
  · intro v hv
    simp [jsShow, hv]
  · intro v hv
    simp [jsShow, hv]
  · intro f hf
    exact renderTemplate_mono 2 f hf exT exD _ (by decide)

/-- Witness for claim C2: substitution of `name` between plain text, and
the loop example at fuel 2. -/
theorem claim_C2_witness :
    (∀ c ∈ ("x-".data : Str), c ≠ lb) ∧ ("name".data : Str) ≠ [] ∧
    (∀ c ∈ ("name".data : Str), c ≠ lb) ∧ (∀ c ∈ ("name".data : Str), c ≠ rb) ∧
    ("name".data : Str).head? ≠ some '#' ∧ (∀ c ∈ ("!".data : Str), c ≠ lb) ∧
    renderTemplate 1 ("x-".data ++ ([lb, lb] ++ ("name".data ++ ([rb, rb] ++ "!".data))))
        (vObj [("name".data, vStr "a".data)]) =
      some ("x-".data ++
        (jsShow (getNestedValue (vObj [("name".data, vStr "a".data)]) "name".data) ++
          "!".data)) ∧
    2 ≤ 2 ∧ renderTemplate 2 exT exD = some ("a-;b-1;".data) :=
  ⟨by decide, by decide, by decide, by decide, by decide, by decide,
   claim_C2_plain_subst.1 (vObj [("name".data, vStr "a".data)]) "x-".data "name".data
     "!".data 0 (by decide) (by decide) (by decide) (by decide) (by decide) (by decide),
   by decide, claim_C2_plain_subst.2.2.2.2 2 (by decide)⟩

/-- Counterexample to claim C2 as stated: the spec's example renders to
"a-;b-1;", not "a-0;b-1;" — the resolved value `0` of `@index` is inserted
as empty text although the path did resolve. -/
theorem claim_C2_counterexample :
    renderTemplate 2 exT exD = some ("a-;b-1;".data) ∧
    renderTemplate 2 exT exD ≠ some ("a-0;b-1;".data) ∧
    jsShow (some (vNum 0)) = [] := by
  exact ⟨by decide, by decide, rfl⟩

/-- Claim C4 (corrected): `#if` renders its body exactly when the resolved
value is truthy with the array special case (a resolved array is truthy
iff non-empty), but `#unless` uses plain JavaScript truthiness with no
array case, so an empty array suppresses the `#unless` body too.  The
spec's `#if` examples hold. -/
theorem claim_C4_conditionals :
    (∀ (d : JVal) (p : Str) (f : Nat), p ≠ [] → (∀ c ∈ p, c ≠ lb) → (∀ c ∈ p, c ≠ rb) →
      renderTemplate (f + 2) (ifTmpl p ("yes".data)) d =
        some (match getNestedValue d p with
              | some (vArr xs) => if 0 < xs.length then "yes".data else []
              | o => if jsTruthyOpt o then "yes".data else []))
    ∧ (∀ (d : JVal) (p : Str) (f : Nat), p ≠ [] → (∀ c ∈ p, c ≠ lb) → (∀ c ∈ p, c ≠ rb) →
      renderTemplate (f + 2) (unlessTmpl p ("no".data)) d =
        some (if jsTruthyOpt (getNestedValue d p) then [] else "no".data))
    ∧ (∀ f, 2 ≤ f → renderTemplate f ifT dEmptyTags = some [])
    ∧ (∀ f, 2 ≤ f → renderTemplate f ifT dFullTags = some ("yes".data)) := by
  refine ⟨?_, ?_, ?_, ?_⟩
  · intro d p f hp hnl hrb
    exact renderTemplate_ifTmpl hp hnl hrb f
  · intro d p f hp hnl hrb
    exact renderTemplate_unlessTmpl hp hnl hrb f
  · intro f hf
    exact renderTemplate_mono 2 f hf ifT dEmptyTags _ (by decide)
  · intro f hf
    exact renderTemplate_mono 2 f hf ifT dFullTags _ (by decide)

/-- Witness for claim C4: the `tags` condition against the empty-array
context, both block forms, and the `#if` examples at fuel 2. -/
theorem claim_C4_witness :
    ("tags".data : Str) ≠ [] ∧ (∀ c ∈ ("tags".data : Str), c ≠ lb) ∧
    (∀ c ∈ ("tags".data : Str), c ≠ rb) ∧
    renderTemplate 2 (ifTmpl ("tags".data) ("yes".data)) dEmptyTags =
      some (match getNestedValue dEmptyTags ("tags".data) with
            | some (vArr xs) => if 0 < xs.length then "yes".data else []
            | o => if jsTruthyOpt o then "yes".data else []) ∧
    renderTemplate 2 (unlessTmpl ("tags".data) ("no".data)) dEmptyTags =
      some (if jsTruthyOpt (getNestedValue dEmptyTags ("tags".data)) then [] else "no".data) ∧
    2 ≤ 2 ∧ renderTemplate 2 ifT dEmptyTags = some [] :=
  ⟨by decide, by decide, by decide,
   claim_C4_conditionals.1 dEmptyTags ("tags".data) 0 (by decide) (by decide) (by decide),
   claim_C4_conditionals.2.1 dEmptyTags ("tags".data) 0 (by decide) (by decide) (by decide),
   by decide, claim_C4_conditionals.2.2.1 2 (by decide)⟩

/-- Counterexample to claim C4 as stated: with `\x7btags: []\x7d` the
resolved sequence is falsy under the claim's truthiness rule, so
`\x7b\x7b#unless tags\x7d\x7dno\x7b\x7b/unless\x7d\x7d` would have to
render "no"; the code's `#unless` pass has no array special case, finds
the empty array truthy, and renders empty text. -/
theorem claim_C4_counterexample :
    renderTemplate 2 unT dEmptyTags = some [] ∧
    renderTemplate 2 unT dEmptyTags ≠ some ("no".data) := by
  exact ⟨by decide, by decide⟩

/-! ## Claim C5: page-1 index asymmetry -/

lemma slash_page_ne {X : Str} : "/page-".data ++ X ≠ "/index.html".data := by
  intro h
  rw [show "/page-".data ++ X = '/' :: 'p' :: ("age-".data ++ X) from rfl] at h
  rw [show "/index.html".data = '/' :: 'i' :: "ndex.html".data from rfl] at h
  simp only [List.cons.injEq] at h
  exact absurd h.2.1 (by decide)

lemma termPagePath_one (slug : Str) : termPagePath slug 1 = slug ++ "/index.html".data := by
  simp [termPagePath]

lemma termPagePath_ge_two {slug : Str} {p : Nat} (hp : 2 ≤ p) :
    termPagePath slug p = slug ++ "/page-".data ++ natDigits p ++ "/index.html".data := by
  rw [termPagePath, if_neg (by omega : ¬ p = 1)]

lemma termPagePath_ge_two_ne {slug : Str} {p : Nat} (hp : 2 ≤ p) :
    termPagePath slug p ≠ termPagePath slug 1 := by
  rw [termPagePath_ge_two hp, termPagePath_one]
  intro h
  rw [List.append_assoc, List.append_assoc] at h
  have h2 := List.append_cancel_left h
  rw [← List.append_assoc] at h2
  exact slash_page_ne ((List.append_assoc _ _ _).symm.trans h2)

lemma replaceStar_decomp {pattern : Str} (digits : Str) (h : '*' ∈ pattern) :
    ∃ pre suf, replaceStar pattern digits = pre ++ digits ++ suf := by
  induction pattern with
  | nil => simp at h
  | cons c cs ih =>
    by_cases hc : c = '*'
    · exact ⟨[], cs, by simp [replaceStar, hc]⟩
    · have hmem : '*' ∈ cs := by
        rcases List.mem_cons.mp h with h1 | h1
        · exact absurd h1.symm hc
        · exact h1
      obtain ⟨pre, suf, hps⟩ := ih hmem
      exact ⟨c :: pre, suf, by simp [replaceStar, hc, hps]⟩

lemma index_html_no_digit : ∀ c ∈ ("index.html".data : Str), c.isDigit = false := by decide

lemma listPagePath_one (pattern : Str) : listPagePath pattern 1 = "index.html".data := by
  simp [listPagePath]

lemma listPagePath_ge_two_ne {pattern : Str} {p : Nat} (hp : 2 ≤ p) (hstar : '*' ∈ pattern) :
    listPagePath pattern p ≠ listPagePath pattern 1 := by
  rw [listPagePath_one, listPagePath, if_neg (by omega : ¬ p = 1)]
  intro h
  obtain ⟨pre, suf, hd⟩ := replaceStar_decomp (natDigits p) hstar
  rw [hd] at h
  obtain ⟨c, hc⟩ := List.exists_mem_of_ne_nil (natDigits p) (natDigits_ne_nil p)
  have hcmem : c ∈ ("index.html".data : Str) := by
    rw [← h]
    simp only [List.append_assoc, List.mem_append]
    exact Or.inr (Or.inl hc)
  have hdig := natDigits_digit hc
  have hnot := index_html_no_digit c hcmem
  rw [hdig] at hnot
  exact Bool.noConfusion hnot

/-- Claim C5: page 1 of a listing always resolves to the index form of its
route and every page `p ≥ 2` to an explicit page-numbered form, never the
reverse — for the clean-style term routes unconditionally, for the
pattern-style list routes whenever the configured pattern contains the
`*` placeholder; the `games` example resolves as the spec says. -/
theorem claim_C5_page_one_index :
    (∀ slug : Str, termPagePath slug 1 = slug ++ "/index.html".data)
    ∧ (∀ (slug : Str) (p : Nat), 2 ≤ p →
        termPagePath slug p = slug ++ "/page-".data ++ natDigits p ++ "/index.html".data ∧
        termPagePath slug p ≠ termPagePath slug 1)
    ∧ (∀ pattern : Str, listPagePath pattern 1 = "index.html".data)
    ∧ (∀ (pattern : Str) (p : Nat), 2 ≤ p → '*' ∈ pattern →
        listPagePath pattern p ≠ listPagePath pattern 1)
    ∧ termPagePath ("games".data) 1 = "games/index.html".data
    ∧ termPagePath ("games".data) 2 = "games/page-2/index.html".data :=
  ⟨termPagePath_one,
   fun slug p hp => ⟨termPagePath_ge_two hp, termPagePath_ge_two_ne hp⟩,
   listPagePath_one,
   fun pattern p hp hstar => listPagePath_ge_two_ne hp hstar,
   by decide, by decide⟩

/-- Witness for claim C5: the `games` route at page 2 and the default
filename pattern at page 2. -/
theorem claim_C5_witness :
    2 ≤ 2 ∧
    (termPagePath ("games".data) 2 =
        "games".data ++ "/page-".data ++ natDigits 2 ++ "/index.html".data ∧
      termPagePath ("games".data) 2 ≠ termPagePath ("games".data) 1) ∧
    '*' ∈ ("page-*.html".data : Str) ∧
    listPagePath ("page-*.html".data) 2 ≠ listPagePath ("page-*.html".data) 1 :=
  ⟨by decide,
   claim_C5_page_one_index.2.1 ("games".data) 2 (by decide),
   by decide,
   claim_C5_page_one_index.2.2.2.1 ("page-*.html".data) 2 (by decide) (by decide)⟩

/-! ## Claims C6 and C8: taxonomy indexing -/

lemma pushTerm_keys (m : List (Str × JVal × List JVal)) (slug : Str) (nm it : JVal) :
    (pushTerm m slug nm it).map (fun e => e.1) =
      if slug ∈ m.map (fun e => e.1) then m.map (fun e => e.1)
      else m.map (fun e => e.1) ++ [slug] := by
  induction m with
  | nil => simp [pushTerm]
  | cons e tl ih =>
    obtain ⟨s, n, its⟩ := e
    by_cases hs : s = slug
    · subst hs
      simp [pushTerm]
    · rw [show pushTerm ((s, n, its) :: tl) slug nm it =
        (s, n, its) :: pushTerm tl slug nm it from by simp [pushTerm, hs]]
      simp only [List.map_cons, ih, List.mem_cons]
      by_cases hmem : slug ∈ tl.map (fun e => e.1)
      · rw [if_pos hmem, if_pos (Or.inr hmem)]
      · rw [if_neg hmem, if_neg (by
          intro hcon
          rcases hcon with h1 | h1
          · exact hs h1.symm
          · exact hmem h1), List.cons_append]

lemma pushTerm_keys_nodup {m : List (Str × JVal × List JVal)} {slug : Str} {nm it : JVal}
    (h : (m.map (fun e => e.1)).Nodup) :
    ((pushTerm m slug nm it).map (fun e => e.1)).Nodup := by
  rw [pushTerm_keys]
  by_cases hmem : slug ∈ m.map (fun e => e.1)
  · rw [if_pos hmem]
    exact h
  · rw [if_neg hmem, List.nodup_append]
    exact ⟨h, List.nodup_singleton slug, by simpa using hmem⟩

lemma termItems_pushTerm (m : List (Str × JVal × List JVal)) (slug : Str) (nm it : JVal) :
    termItems (pushTerm m slug nm it) slug = termItems m slug ++ [it] := by
  induction m with
  | nil => simp [pushTerm, termItems]
  | cons e tl ih =>
    obtain ⟨s, n, its⟩ := e
    by_cases hs : s = slug
    · subst hs
      simp [pushTerm, termItems]
    · rw [show pushTerm ((s, n, its) :: tl) slug nm it =
        (s, n, its) :: pushTerm tl slug nm it from by simp [pushTerm, hs],
        show termItems ((s, n, its) :: pushTerm tl slug nm it) slug =
          termItems (pushTerm tl slug nm it) slug from by simp [termItems, hs],
        show termItems ((s, n, its) :: tl) slug = termItems tl slug from by
          simp [termItems, hs]]
      exact ih

/-- Claim C6: the taxonomy indexer creates each term lazily at first
reference — term slugs are never duplicated in the map — and on the spec's
two-item input produces exactly the terms `action` (1 item) and `retro`
(2 items), in first-seen order, each item list in supply order, with the
terms-list summary reporting those names, slugs and counts in that
order. -/
theorem claim_C6_taxonomy_order :
    (∀ (items : List JVal) (tax : Str),
      ((indexTaxonomy items tax).map (fun e => e.1)).Nodup)
    ∧ indexTaxonomy [i1, i2] ("genres".data) =
        [("action".data, vStr "action".data, [i1]),
         ("retro".data, vStr "retro".data, [i1, i2])]
    ∧ termsList (indexTaxonomy [i1, i2] ("genres".data)) =
        [(vStr "action".data, "action".data, 1), (vStr "retro".data, "retro".data, 2)] := by
  refine ⟨?_, by decide, by decide⟩
  intro items tax
  rw [indexTaxonomy]
  refine @List.foldlRecOn _ _
    (fun b : List (Str × JVal × List JVal) => (b.map (fun e => e.1)).Nodup) items _ [] List.nodup_nil ?_
  intro acc hacc it _
  refine @List.foldlRecOn _ _
    (fun b : List (Str × JVal × List JVal) => (b.map (fun e => e.1)).Nodup) (entriesOf it tax) _ acc hacc ?_
  intro acc2 hacc2 t _
  exact pushTerm_keys_nodup hacc2

/-- Claim C8 (corrected): `items.push(item)` is unconditional — the
current item is appended to the term's item list even when it already is
the most recently appended element, so an item whose attribute list
references the same term twice is appended twice. -/
theorem claim_C8_push_unconditional :
    (∀ (m : List (Str × JVal × List JVal)) (slug : Str) (nm it : JVal),
      termItems (pushTerm m slug nm it) slug = termItems m slug ++ [it])
    ∧ indexTaxonomy [iDup] ("tags".data) = [("x0".data, vStr "x".data, [iDup, iDup])] :=
  ⟨termItems_pushTerm, by decide⟩

/-- Counterexample to claim C8 as stated: the item tagged `["x", "x"]` is
already the most recently appended element of the `x0` term list when its
second `x` entry is processed, yet it is appended again — the claimed
"only if not already most recently appended" guard does not exist. -/
theorem claim_C8_counterexample :
    termItems (indexTaxonomy [iDup] ("tags".data)) ("x0".data) = [iDup, iDup] ∧
    ([iDup] : List JVal).getLast? = some iDup ∧
    ([iDup, iDup] : List JVal) ≠ [iDup] := by
  exact ⟨by decide, by decide, by decide⟩
